import Mathlib

/-!
Verification of the flood-it solver (`src/main.rs` of `valdo404/color-it`).

The grid is embedded with row-major cell storage: the source stores cells in
a `DMatrix<u8>` indexed as `data[(y, x)]`; here `data` is a `List ℕ` and the
cell at row `y`, column `x` lives at index `y * width + x`.  Machine `u8` /
`usize` values are modelled as `ℕ`; all values the program computes stay far
below any overflow boundary (cell values come from `u8` parsing, bounded by
255, and sizes are only multiplied/added).  The solver's stack-based loops
are embedded with explicit fuel; the fuel chosen for each loop is proved
sufficient where theorems need the loop to run to natural exhaustion.
Console printing (`print_stats`, the `output_grids` diagnostics) has no
effect on returned values and is omitted.
-/

/-- Mirror of `struct Grid`: dimensions, color count and the cell matrix
(row-major flattening of the `DMatrix`). -/
structure Grid where
  width : ℕ
  height : ℕ
  colors : ℕ
  data : List ℕ
deriving DecidableEq

/-- Read the cell `data[(y, x)]` (row `y`, column `x`). -/
def getCell (g : Grid) (y x : ℕ) : ℕ :=
  g.data.getD (y * g.width + x) 0

/-- Mirror of `Grid::is_complete`: every cell equals the origin cell
`data[(0, 0)]`. -/
def isComplete (g : Grid) : Bool :=
  g.data.all (fun c => c == getCell g 0 0)

/-- Well-formedness invariant of the data model: the cell list has exactly
`width * height` entries, every value lies in `[0, colors)`, and
`colors ≥ 1`. -/
def WellFormed (g : Grid) : Prop :=
  g.data.length = g.width * g.height ∧ (∀ v ∈ g.data, v < g.colors) ∧ 1 ≤ g.colors

instance (g : Grid) : Decidable (WellFormed g) := by
  unfold WellFormed
  infer_instance

/-- Mirror of the `while let Some((x, y)) = stack.pop()` loop of
`Grid::flood_fill`.  The stack is a list whose head is the top (the Rust
`Vec` pops from the end, and the four neighbour pushes are mirrored so that
the last push is popped first).  The `visited` boolean matrix is modelled as
the finite set of marked coordinates.  The source asserts that every popped
coordinate is in bounds; every pushed coordinate is in bounds whenever the
initial stack is, so the assertion is sound and carries no runtime effect.
Recursion is by fuel; `flood_fill` supplies fuel proved sufficient for the
loop to drain its stack. -/
def floodPushes (width height source : ℕ) (x y : ℕ) (rest : List (ℕ × ℕ))
    (visited2 : Finset (ℕ × ℕ)) (data2 : List ℕ) : List (ℕ × ℕ) :=
  let s1 := if 0 < x ∧ (x - 1, y) ∉ visited2 ∧
      data2.getD (y * width + (x - 1)) 0 = source then (x - 1, y) :: rest else rest
  let s2 := if x < width - 1 ∧ (x + 1, y) ∉ visited2 ∧
      data2.getD (y * width + (x + 1)) 0 = source then (x + 1, y) :: s1 else s1
  let s3 := if 0 < y ∧ (x, y - 1) ∉ visited2 ∧
      data2.getD ((y - 1) * width + x) 0 = source then (x, y - 1) :: s2 else s2
  if y < height - 1 ∧ (x, y + 1) ∉ visited2 ∧
      data2.getD ((y + 1) * width + x) 0 = source then (x, y + 1) :: s3 else s3

def floodLoop (width height source target : ℕ) :
    ℕ → List (ℕ × ℕ) → Finset (ℕ × ℕ) → List ℕ → List ℕ
  | 0, _, _, data => data
  | _ + 1, [], _, data => data
  | fuel + 1, (x, y) :: rest, visited, data =>
    if (x, y) ∈ visited then
      floodLoop width height source target fuel rest visited data
    else if data.getD (y * width + x) 0 = source then
      floodLoop width height source target fuel
        (floodPushes width height source x y rest (insert (x, y) visited)
          (data.set (y * width + x) target))
        (insert (x, y) visited) (data.set (y * width + x) target)
    else
      floodLoop width height source target fuel rest visited data

/-- Unfold equation of `floodLoop` for a popped coordinate already visited. -/
theorem floodLoop_skip_visited (width height source target n x y : ℕ)
    (rest : List (ℕ × ℕ)) (visited : Finset (ℕ × ℕ)) (data : List ℕ)
    (hv : (x, y) ∈ visited) :
    floodLoop width height source target (n + 1) ((x, y) :: rest) visited data =
      floodLoop width height source target n rest visited data := by
  simp only [floodLoop]
  rw [if_pos hv]

/-- Unfold equation of `floodLoop` for a popped coordinate whose cell no
longer holds the source color. -/
theorem floodLoop_skip_color (width height source target n x y : ℕ)
    (rest : List (ℕ × ℕ)) (visited : Finset (ℕ × ℕ)) (data : List ℕ)
    (hv : (x, y) ∉ visited) (hs : data.getD (y * width + x) 0 ≠ source) :
    floodLoop width height source target (n + 1) ((x, y) :: rest) visited data =
      floodLoop width height source target n rest visited data := by
  simp only [floodLoop]
  rw [if_neg hv, if_neg hs]

/-- Unfold equation of `floodLoop` for the absorbing case: the popped cell is
unvisited and still holds the source color, so it is recolored, marked, and
its eligible neighbours are pushed. -/
theorem floodLoop_write (width height source target n x y : ℕ)
    (rest : List (ℕ × ℕ)) (visited : Finset (ℕ × ℕ)) (data : List ℕ)
    (hv : (x, y) ∉ visited) (hs : data.getD (y * width + x) 0 = source) :
    floodLoop width height source target (n + 1) ((x, y) :: rest) visited data =
      floodLoop width height source target n
        (floodPushes width height source x y rest (insert (x, y) visited)
          (data.set (y * width + x) target))
        (insert (x, y) visited) (data.set (y * width + x) target) := by
  simp only [floodLoop]
  rw [if_neg hv, if_pos hs]

/-- Fuel bound for `floodLoop`: strictly more than five times the cell count
plus the initial stack length. -/
def floodFuel (g : Grid) : ℕ :=
  5 * (g.width * g.height) + 1

/-- Mirror of `Grid::flood_fill`: if the origin already holds `target` the
grid is returned unchanged, otherwise the DFS loop recolors the origin
region.  The source's dimension assertions (`width > 0`, `height > 0`)
become hypotheses of the theorems below. -/
def flood_fill (g : Grid) (target : ℕ) : Grid :=
  let source := getCell g 0 0
  if source = target then g
  else { g with
    data := floodLoop g.width g.height source target (floodFuel g) [(0, 0)] ∅ g.data }

/-- Mirror of `Grid::apply_solution`: fold the moves through `flood_fill`
and report `is_complete` on the final grid (the source mutates in place and
returns the boolean; the final grid is exposed here as well). -/
def apply_solution (g : Grid) (solution : List ℕ) : Grid × Bool :=
  let final := solution.foldl (fun acc color => flood_fill acc color) g
  (final, isComplete final)

/-- Mirror of `struct SearchState` inside `solve`: the moves taken so far and
the cell matrix they produce. -/
structure SearchState where
  moves : List ℕ
  grid_state : List ℕ
deriving DecidableEq

/-- Mirror of the seeding loop of `solve`: for every color other than the
origin color, flood-fill a clone of the input grid and push a one-move search
state if the resulting cell matrix was not seen before.  The accumulator is
`(stack, visited)`; pushing conses, so the highest seeded color ends on top
exactly as with the Rust `Vec`. -/
def initSearch (g : Grid) : List SearchState × List (List ℕ) :=
  (List.range g.colors).foldl
    (fun acc color =>
      if color ≠ getCell g 0 0 then
        let temp := flood_fill g color
        if temp.data ∈ acc.2 then acc
        else (SearchState.mk [color] temp.data :: acc.1, temp.data :: acc.2)
      else acc)
    ([], [])

/-- Mirror of the expansion loop of `solve`: from the popped state, try every
color except the state's origin color and the immediately preceding move;
keep a successor only when its cell matrix is new.  `stack` is the remaining
work list the successors are pushed onto, `visited` the set of seen cell
matrices (the Rust `HashSet` is modelled as the list of its elements,
inserted only when absent). -/
def expandState (g : Grid) (temp : Grid) (st : SearchState)
    (stack : List SearchState) (visited : List (List ℕ)) :
    List SearchState × List (List ℕ) :=
  (List.range g.colors).foldl
    (fun acc color =>
      if color = getCell temp 0 0 ∨ st.moves.getLast? = some color then acc
      else
        let next := flood_fill temp color
        if next.data ∈ acc.2 then acc
        else (SearchState.mk (st.moves ++ [color]) next.data :: acc.1, next.data :: acc.2))
    (stack, visited)

/-- Mirror of the `while let Some(state) = stack.pop()` search loop of
`solve`, with explicit fuel.  Arguments after the fuel: work stack (head =
top), visited cell matrices, current best solution, current minimum length
bound. -/
def solveLoop (g : Grid) :
    ℕ → List SearchState → List (List ℕ) → List ℕ → ℕ → List ℕ
  | 0, _, _, best, _ => best
  | _ + 1, [], _, best, _ => best
  | fuel + 1, st :: rest, visited, best, minLen =>
    if minLen ≤ st.moves.length then
      solveLoop g fuel rest visited best minLen
    else
      let temp : Grid := Grid.mk g.width g.height g.colors st.grid_state
      if isComplete temp then
        if st.moves.length < minLen then
          solveLoop g fuel rest visited st.moves st.moves.length
        else
          solveLoop g fuel rest visited best minLen
      else
        let p := expandState g temp st rest visited
        solveLoop g fuel p.1 p.2 best minLen

/-- Fuel bound for `solveLoop`: every loop iteration either pops an entry or
pops one and pushes successors, each push inserting a previously unseen cell
matrix into `visited`; there are at most `colors ^ (width * height)`
well-formed cell matrices, so `2 * colors ^ (width * height) + colors + 1`
iterations exhaust the work list. -/
def solveFuel (g : Grid) : ℕ :=
  2 * g.colors ^ (g.width * g.height) + g.colors + 1

/-- Mirror of `fn solve`: an already complete grid short-circuits to the
empty move list before any search state is created; otherwise the seeded
branch-and-bound search runs to exhaustion, starting from the upper bound
`width * height`. -/
def solve (g : Grid) : List ℕ :=
  if isComplete g then []
  else
    let init := initSearch g
    solveLoop g (solveFuel g) init.1 init.2 [] (g.width * g.height)

/-- Claim C4: flood-filling with the color already at the origin cell is a
no-op: the grid (hence every cell) is unchanged, for every non-empty grid. -/
theorem flood_fill_noop (g : Grid) (hw : 0 < g.width) (hh : 0 < g.height) :
    flood_fill g (getCell g 0 0) = g := by
  simp [flood_fill]

/-- Witness for C4 at a concrete non-empty grid. -/
theorem flood_fill_noop_witness :
    0 < (Grid.mk 2 2 2 [0, 1, 1, 0]).width ∧
      0 < (Grid.mk 2 2 2 [0, 1, 1, 0]).height ∧
      flood_fill (Grid.mk 2 2 2 [0, 1, 1, 0]) (getCell (Grid.mk 2 2 2 [0, 1, 1, 0]) 0 0) =
        Grid.mk 2 2 2 [0, 1, 1, 0] :=
  ⟨by decide, by decide, flood_fill_noop (Grid.mk 2 2 2 [0, 1, 1, 0]) (by decide) (by decide)⟩

/-- Reading a list after `List.set`, with the default value `0`. -/
theorem getD_set (l : List ℕ) (i j a : ℕ) :
    (l.set i a).getD j 0 = if j = i ∧ i < l.length then a else l.getD j 0 := by
  rw [List.getD_eq_getElem?_getD, List.getD_eq_getElem?_getD, List.getElem?_set]
  by_cases h1 : i = j
  · subst h1
    by_cases h2 : i < l.length
    · simp [h2]
    · simp only [h2, if_false, if_true, and_false, if_neg, Option.getD_none]
      rw [List.getElem?_eq_none (Nat.le_of_not_lt h2)]
      simp [h2]
  · rw [if_neg h1, if_neg (fun hc => h1 hc.1.symm)]

/-- A grid with `colors = 1` and in-range cells is monochrome. -/
theorem isComplete_of_colors_one (g : Grid) (hwf : WellFormed g) (hc : g.colors = 1) :
    isComplete g = true := by
  obtain ⟨-, hlt, -⟩ := hwf
  unfold isComplete
  rw [List.all_eq_true]
  intro v hv
  have h1 : v < 1 := hc ▸ hlt v hv
  have h2 : getCell g 0 0 = 0 := by
    unfold getCell
    rw [List.getD_eq_getElem?_getD]
    cases h : g.data[(0 * g.width + 0)]? with
    | none => rfl
    | some w =>
      have hw := hlt w (List.getElem?_mem h)
      simp [Nat.lt_one_iff.mp (hc ▸ hw)]
  simp [h2, Nat.lt_one_iff.mp h1]

/-- A 1×1 well-formed grid is monochrome. -/
theorem isComplete_of_one_cell (g : Grid) (hwf : WellFormed g)
    (hw : g.width = 1) (hh : g.height = 1) : isComplete g = true := by
  obtain ⟨W, H, C, data⟩ := g
  obtain ⟨hlen, -, -⟩ := hwf
  simp only at hw hh hlen
  rw [hw, hh] at hlen
  rcases data with - | ⟨a, - | ⟨b, l⟩⟩
  · simp at hlen
  · simp [isComplete, getCell, List.all_eq_true]
  · simp only [List.length_cons] at hlen
    omega

/-- Claim C6: a grid that is already monochrome (in particular every
well-formed grid with a single color, and every well-formed 1×1 grid) makes
`solve` return the empty move sequence by the short-circuit check, before
any search state is pushed or expanded. -/
theorem solve_monochrome (g : Grid) (hwf : WellFormed g) :
    (isComplete g = true → solve g = []) ∧
      (g.colors = 1 → solve g = []) ∧
      (g.width = 1 → g.height = 1 → solve g = []) := by
  refine ⟨fun h => by simp [solve, h], fun hc => ?_, fun hw hh => ?_⟩
  · simp [solve, isComplete_of_colors_one g hwf hc]
  · simp [solve, isComplete_of_one_cell g hwf hw hh]

/-- Witness for C6 at a concrete monochrome grid. -/
theorem solve_monochrome_witness :
    WellFormed (Grid.mk 2 2 1 [0, 0, 0, 0]) ∧
      solve (Grid.mk 2 2 1 [0, 0, 0, 0]) = [] :=
  ⟨by decide, (solve_monochrome (Grid.mk 2 2 1 [0, 0, 0, 0]) (by decide)).1 (by decide)⟩

/-- Every cell of a `floodLoop` result holds either its input value or the
target color: the loop writes nothing but `target`. -/
theorem floodLoop_getD_cases (width height source target : ℕ) :
    ∀ (fuel : ℕ) (stack : List (ℕ × ℕ)) (visited : Finset (ℕ × ℕ))
      (data : List ℕ) (idx : ℕ),
      (floodLoop width height source target fuel stack visited data).getD idx 0 =
          data.getD idx 0 ∨
        (floodLoop width height source target fuel stack visited data).getD idx 0 =
          target := by
  intro fuel
  induction fuel with
  | zero => intro stack visited data idx; left; rfl
  | succ n ih =>
    intro stack visited data idx
    match stack with
    | [] => left; rfl
    | (x, y) :: rest =>
      by_cases hv : (x, y) ∈ visited
      · rw [floodLoop_skip_visited width height source target n x y rest visited data hv]
        exact ih rest visited data idx
      · by_cases hs : data.getD (y * width + x) 0 = source
        · rw [floodLoop_write width height source target n x y rest visited data hv hs]
          rcases ih (floodPushes width height source x y rest (insert (x, y) visited)
              (data.set (y * width + x) target)) (insert (x, y) visited)
              (data.set (y * width + x) target) idx with h | h
          · rw [getD_set] at h
            by_cases hcase : idx = y * width + x ∧ y * width + x < data.length
            · right; rw [h, if_pos hcase]
            · left; rw [h, if_neg hcase]
          · right; exact h
        · rw [floodLoop_skip_color width height source target n x y rest visited data hv hs]
          exact ih rest visited data idx

/-- Once a cell holds the target color, the rest of the loop keeps it there. -/
theorem floodLoop_target_sticks (width height source target : ℕ)
    (fuel : ℕ) (stack : List (ℕ × ℕ)) (visited : Finset (ℕ × ℕ))
    (data : List ℕ) (idx : ℕ) (h : data.getD idx 0 = target) :
    (floodLoop width height source target fuel stack visited data).getD idx 0 =
      target := by
  rcases floodLoop_getD_cases width height source target fuel stack visited data idx with
    hc | hc
  · rw [hc, h]
  · exact hc

/-- The flood loop never changes the shape of the cell list. -/
theorem floodLoop_length (width height source target : ℕ) :
    ∀ (fuel : ℕ) (stack : List (ℕ × ℕ)) (visited : Finset (ℕ × ℕ)) (data : List ℕ),
      (floodLoop width height source target fuel stack visited data).length =
        data.length := by
  intro fuel
  induction fuel with
  | zero => intro stack visited data; rfl
  | succ n ih =>
    intro stack visited data
    match stack with
    | [] => rfl
    | (x, y) :: rest =>
      by_cases hv : (x, y) ∈ visited
      · rw [floodLoop_skip_visited width height source target n x y rest visited data hv]
        exact ih rest visited data
      · by_cases hs : data.getD (y * width + x) 0 = source
        · rw [floodLoop_write width height source target n x y rest visited data hv hs]
          rw [ih, List.length_set]
        · rw [floodLoop_skip_color width height source target n x y rest visited data hv hs]
          exact ih rest visited data

/-- Structure fields other than `data` survive `flood_fill`. -/
theorem flood_fill_fields (g : Grid) (target : ℕ) :
    (flood_fill g target).width = g.width ∧
      (flood_fill g target).height = g.height ∧
      (flood_fill g target).colors = g.colors ∧
      (flood_fill g target).data.length = g.data.length := by
  unfold flood_fill
  by_cases h : getCell g 0 0 = target
  · simp [h]
  · simp [h, floodLoop_length]

/-- After `flood_fill g target` on a non-empty grid, the origin cell holds
`target`. -/
theorem flood_fill_origin (g : Grid) (target : ℕ)
    (hw : 0 < g.width) (hh : 0 < g.height) (hlen : g.data.length = g.width * g.height) :
    getCell (flood_fill g target) 0 0 = target := by
  by_cases h : getCell g 0 0 = target
  · subst h
    rw [flood_fill_noop g hw hh]
  · have heq := floodLoop_write g.width g.height (getCell g 0 0) target
      (5 * (g.width * g.height)) 0 0 [] ∅ g.data (Finset.not_mem_empty _) rfl
    have hpos : 0 * g.width + 0 < g.data.length := by
      rw [hlen]
      simpa using Nat.mul_pos hw hh
    show (flood_fill g target).data.getD (0 * (flood_fill g target).width + 0) 0 = target
    rw [(flood_fill_fields g target).1]
    simp only [flood_fill, h, if_false, if_neg, floodFuel]
    rw [heq]
    apply floodLoop_target_sticks
    rw [getD_set, if_pos ⟨rfl, hpos⟩]

/-- Claim C10: after `flood_fill` with any target color the origin cell
holds that color, and therefore flood-filling twice with the same color is
the same as flood-filling once (the second call takes the no-op early
return). -/
theorem flood_fill_origin_idem (g : Grid) (c : ℕ)
    (hw : 0 < g.width) (hh : 0 < g.height)
    (hlen : g.data.length = g.width * g.height) :
    getCell (flood_fill g c) 0 0 = c ∧
      flood_fill (flood_fill g c) c = flood_fill g c := by
  have h1 := flood_fill_origin g c hw hh hlen
  refine ⟨h1, ?_⟩
  have hXw : 0 < (flood_fill g c).width := by
    rw [(flood_fill_fields g c).1]; exact hw
  have hXh : 0 < (flood_fill g c).height := by
    rw [(flood_fill_fields g c).2.1]; exact hh
  have hnoop := flood_fill_noop (flood_fill g c) hXw hXh
  rw [h1] at hnoop
  exact hnoop

/-- Two cells are 4-connected neighbours (coordinates are `(x, y)` pairs,
`x` the column and `y` the row, as in the source's stack entries). -/
def Adjacent (p q : ℕ × ℕ) : Prop :=
  (p.2 = q.2 ∧ (q.1 = p.1 + 1 ∨ p.1 = q.1 + 1)) ∨
    (p.1 = q.1 ∧ (q.2 = p.2 + 1 ∨ p.2 = q.2 + 1))

/-- The coordinate lies inside a `width × height` grid. -/
def InBounds (w h : ℕ) (p : ℕ × ℕ) : Prop :=
  p.1 < w ∧ p.2 < h

/-- Cell value at a coordinate, on a row-major cell list of row length `w`. -/
def cellAt (w : ℕ) (data : List ℕ) (p : ℕ × ℕ) : ℕ :=
  data.getD (p.2 * w + p.1) 0

/-- The maximal 4-connected region of `source`-colored cells containing the
origin: the coordinates reachable from `(0, 0)` by steps onto in-bounds
`source`-colored cells. -/
def Region (w h : ℕ) (data : List ℕ) (source : ℕ) (p : ℕ × ℕ) : Prop :=
  Relation.ReflTransGen
    (fun a b => Adjacent a b ∧ InBounds w h b ∧ cellAt w data b = source) (0, 0) p

/-- Row-major index of an in-bounds coordinate is within the cell count. -/
theorem index_lt (w h x y : ℕ) (hx : x < w) (hy : y < h) :
    y * w + x < w * h := by
  calc y * w + x < y * w + w := by omega
    _ = (y + 1) * w := by ring
    _ ≤ h * w := Nat.mul_le_mul_right w hy
    _ = w * h := Nat.mul_comm h w

/-- Row-major indexing is injective on in-bounds coordinates. -/
theorem index_inj (w x y x' y' : ℕ) (hx : x < w) (hx' : x' < w)
    (heq : y * w + x = y' * w + x') : x = x' ∧ y = y' := by
  rcases Nat.lt_trichotomy y y' with hlt | he | hgt
  · exfalso
    have : y * w + x < y' * w + x' := by
      calc y * w + x < y * w + w := by omega
        _ = (y + 1) * w := by ring
        _ ≤ y' * w := Nat.mul_le_mul_right w hlt
        _ ≤ y' * w + x' := Nat.le_add_right _ _
    omega
  · subst he
    omega
  · exfalso
    have : y' * w + x' < y * w + x := by
      calc y' * w + x' < y' * w + w := by omega
        _ = (y' + 1) * w := by ring
        _ ≤ y * w := Nat.mul_le_mul_right w hgt
        _ ≤ y * w + x := Nat.le_add_right _ _
    omega

/-- Everything in the remaining stack survives the `floodPushes` block. -/
theorem floodPushes_rest (width height source x y : ℕ) (rest : List (ℕ × ℕ))
    (v2 : Finset (ℕ × ℕ)) (d2 : List ℕ) (q : ℕ × ℕ) (hq : q ∈ rest) :
    q ∈ floodPushes width height source x y rest v2 d2 := by
  unfold floodPushes
  split_ifs <;> simp [List.mem_cons, hq]

/-- Case analysis for membership in a conditionally consed list. -/
theorem mem_ite_cons {α : Type} (c : Prop) [Decidable c] (a : α) (l : List α)
    (q : α) (hq : q ∈ if c then a :: l else l) : (c ∧ q = a) ∨ q ∈ l := by
  by_cases h : c
  · rw [if_pos h] at hq
    rcases List.mem_cons.mp hq with h1 | h1
    · exact Or.inl ⟨h, h1⟩
    · exact Or.inr h1
  · rw [if_neg h] at hq
    exact Or.inr hq

/-- A conditionally consed element is a member when the condition holds. -/
theorem mem_ite_cons_self {α : Type} (c : Prop) [Decidable c] (hc : c)
    (a : α) (l : List α) : a ∈ if c then a :: l else l := by
  rw [if_pos hc]
  exact List.mem_cons_self a l

/-- Old members survive a conditional cons. -/
theorem mem_ite_cons_of {α : Type} (c : Prop) [Decidable c] (a : α)
    (l : List α) (q : α) (hq : q ∈ l) : q ∈ if c then a :: l else l := by
  split_ifs
  · exact List.mem_cons_of_mem a hq
  · exact hq

/-- Membership in the `floodPushes` block: either an old stack entry or one
of the four neighbours, pushed under its guard. -/
theorem floodPushes_mem (width height source x y : ℕ) (rest : List (ℕ × ℕ))
    (v2 : Finset (ℕ × ℕ)) (d2 : List ℕ) (q : ℕ × ℕ)
    (hq : q ∈ floodPushes width height source x y rest v2 d2) :
    q ∈ rest ∨
      (q = (x - 1, y) ∧ 0 < x ∧ q ∉ v2 ∧ d2.getD (y * width + (x - 1)) 0 = source) ∨
      (q = (x + 1, y) ∧ x < width - 1 ∧ q ∉ v2 ∧ d2.getD (y * width + (x + 1)) 0 = source) ∨
      (q = (x, y - 1) ∧ 0 < y ∧ q ∉ v2 ∧ d2.getD ((y - 1) * width + x) 0 = source) ∨
      (q = (x, y + 1) ∧ y < height - 1 ∧ q ∉ v2 ∧ d2.getD ((y + 1) * width + x) 0 = source) := by
  simp only [floodPushes] at hq
  rcases mem_ite_cons _ _ _ _ hq with ⟨h4, rfl⟩ | hq
  · exact Or.inr (Or.inr (Or.inr (Or.inr ⟨rfl, h4.1, h4.2.1, h4.2.2⟩)))
  rcases mem_ite_cons _ _ _ _ hq with ⟨h3, rfl⟩ | hq
  · exact Or.inr (Or.inr (Or.inr (Or.inl ⟨rfl, h3.1, h3.2.1, h3.2.2⟩)))
  rcases mem_ite_cons _ _ _ _ hq with ⟨h2, rfl⟩ | hq
  · exact Or.inr (Or.inr (Or.inl ⟨rfl, h2.1, h2.2.1, h2.2.2⟩))
  rcases mem_ite_cons _ _ _ _ hq with ⟨h1, rfl⟩ | hq
  · exact Or.inr (Or.inl ⟨rfl, h1.1, h1.2.1, h1.2.2⟩)
  · exact Or.inl hq

/-- The left neighbour is pushed when its guard holds. -/
theorem floodPushes_mem_left (width height source x y : ℕ) (rest : List (ℕ × ℕ))
    (v2 : Finset (ℕ × ℕ)) (d2 : List ℕ)
    (hc : 0 < x ∧ (x - 1, y) ∉ v2 ∧ d2.getD (y * width + (x - 1)) 0 = source) :
    (x - 1, y) ∈ floodPushes width height source x y rest v2 d2 := by
  simp only [floodPushes]
  exact mem_ite_cons_of _ _ _ _ (mem_ite_cons_of _ _ _ _
    (mem_ite_cons_of _ _ _ _ (mem_ite_cons_self _ hc _ _)))

/-- The right neighbour is pushed when its guard holds. -/
theorem floodPushes_mem_right (width height source x y : ℕ) (rest : List (ℕ × ℕ))
    (v2 : Finset (ℕ × ℕ)) (d2 : List ℕ)
    (hc : x < width - 1 ∧ (x + 1, y) ∉ v2 ∧ d2.getD (y * width + (x + 1)) 0 = source) :
    (x + 1, y) ∈ floodPushes width height source x y rest v2 d2 := by
  simp only [floodPushes]
  exact mem_ite_cons_of _ _ _ _ (mem_ite_cons_of _ _ _ _
    (mem_ite_cons_self _ hc _ _))

/-- The upper neighbour is pushed when its guard holds. -/
theorem floodPushes_mem_up (width height source x y : ℕ) (rest : List (ℕ × ℕ))
    (v2 : Finset (ℕ × ℕ)) (d2 : List ℕ)
    (hc : 0 < y ∧ (x, y - 1) ∉ v2 ∧ d2.getD ((y - 1) * width + x) 0 = source) :
    (x, y - 1) ∈ floodPushes width height source x y rest v2 d2 := by
  simp only [floodPushes]
  exact mem_ite_cons_of _ _ _ _ (mem_ite_cons_self _ hc _ _)

/-- The lower neighbour is pushed when its guard holds. -/
theorem floodPushes_mem_down (width height source x y : ℕ) (rest : List (ℕ × ℕ))
    (v2 : Finset (ℕ × ℕ)) (d2 : List ℕ)
    (hc : y < height - 1 ∧ (x, y + 1) ∉ v2 ∧ d2.getD ((y + 1) * width + x) 0 = source) :
    (x, y + 1) ∈ floodPushes width height source x y rest v2 d2 := by
  simp only [floodPushes]
  exact mem_ite_cons_self _ hc _ _

/-- The `floodPushes` block grows the stack by at most four entries. -/
theorem floodPushes_length (width height source x y : ℕ) (rest : List (ℕ × ℕ))
    (v2 : Finset (ℕ × ℕ)) (d2 : List ℕ) :
    (floodPushes width height source x y rest v2 d2).length ≤ rest.length + 4 := by
  simp only [floodPushes]
  split_ifs <;> simp [List.length_cons] <;> omega

/-- Invariant of the flood-fill DFS loop, relative to the pre-fill cell list
`d0`, the source color `s` and the target color `t`: visited cells are
exactly the recolored ones and lie in the origin region, unvisited cells are
untouched, stack cells are in-bounds source-colored region cells, the
source-colored frontier of the visited set lies on the stack, and the origin
is accounted for. -/
structure FloodInv (w h s t : ℕ) (d0 : List ℕ) (stack : List (ℕ × ℕ))
    (visited : Finset (ℕ × ℕ)) (data : List ℕ) : Prop where
  len_eq : data.length = d0.length
  vis_mem : ∀ p ∈ visited, InBounds w h p ∧ cellAt w d0 p = s ∧ cellAt w data p = t
  unvis_same : ∀ p, p ∉ visited → InBounds w h p → cellAt w data p = cellAt w d0 p
  stack_src : ∀ p ∈ stack, InBounds w h p ∧ cellAt w d0 p = s
  stack_reg : ∀ p ∈ stack, Region w h d0 s p
  vis_reg : ∀ p ∈ visited, Region w h d0 s p
  frontier : ∀ p q, p ∈ visited → Adjacent p q → InBounds w h q → cellAt w d0 q = s →
      q ∈ visited ∨ q ∈ stack
  origin_in : (0, 0) ∈ visited ∨ (0, 0) ∈ stack

/-- When the stack is empty the invariant pins down every cell: region cells
(and only they) are visited, visited cells hold the target, unvisited cells
are unchanged. -/
theorem floodInv_final (w h s t : ℕ) (d0 data : List ℕ) (visited : Finset (ℕ × ℕ))
    (inv : FloodInv w h s t d0 [] visited data) :
    ∀ p, InBounds w h p →
      (Region w h d0 s p → cellAt w data p = t) ∧
      (¬Region w h d0 s p → cellAt w data p = cellAt w d0 p) := by
  have hvis : ∀ p, Region w h d0 s p → p ∈ visited := by
    intro p hreg
    unfold Region at hreg
    induction hreg with
    | refl =>
      rcases inv.origin_in with h1 | h1
      · exact h1
      · exact absurd h1 (List.not_mem_nil _)
    | tail hab step ih =>
      rcases inv.frontier _ _ ih step.1 step.2.1 step.2.2 with h1 | h1
      · exact h1
      · exact absurd h1 (List.not_mem_nil _)
  intro p hp
  constructor
  · intro hreg
    exact (inv.vis_mem p (hvis p hreg)).2.2
  · intro hnreg
    apply inv.unvis_same p _ hp
    intro hmem
    exact hnreg (inv.vis_reg p hmem)

/-- One absorbing step of the loop preserves the invariant. -/
theorem floodInv_step (w h s t : ℕ) (d0 : List ℕ) (hlen0 : d0.length = w * h)
    (x y : ℕ) (rest : List (ℕ × ℕ)) (visited : Finset (ℕ × ℕ)) (data : List ℕ)
    (inv : FloodInv w h s t d0 ((x, y) :: rest) visited data)
    (hv : (x, y) ∉ visited) :
    FloodInv w h s t d0
      (floodPushes w h s x y rest (insert (x, y) visited) (data.set (y * w + x) t))
      (insert (x, y) visited) (data.set (y * w + x) t) := by
  obtain ⟨hxyb, hxys⟩ := inv.stack_src (x, y) (List.mem_cons_self _ _)
  have hxb : x < w := hxyb.1
  have hyb : y < h := hxyb.2
  have hlen_data : data.length = w * h := inv.len_eq.trans hlen0
  have hidx : y * w + x < data.length := by rw [hlen_data]; exact index_lt w h x y hxb hyb
  have hset_self : cellAt w (data.set (y * w + x) t) (x, y) = t := by
    show (data.set (y * w + x) t).getD (y * w + x) 0 = t
    rw [getD_set, if_pos ⟨rfl, hidx⟩]
  have hset_other : ∀ p : ℕ × ℕ, p.1 < w → p ≠ (x, y) →
      cellAt w (data.set (y * w + x) t) p = cellAt w data p := by
    intro p hpw hpne
    show (data.set (y * w + x) t).getD (p.2 * w + p.1) 0 = data.getD (p.2 * w + p.1) 0
    rw [getD_set, if_neg]
    rintro ⟨heq, -⟩
    obtain ⟨hx1, hy1⟩ := index_inj w p.1 p.2 x y hpw hxb heq
    exact hpne (Prod.ext hx1 hy1)
  have hxyreg : Region w h d0 s (x, y) := inv.stack_reg (x, y) (List.mem_cons_self _ _)
  have hnew : ∀ q ∈ floodPushes w h s x y rest (insert (x, y) visited)
      (data.set (y * w + x) t),
      (InBounds w h q ∧ cellAt w d0 q = s) ∧ Region w h d0 s q := by
    intro q hq
    rcases floodPushes_mem w h s x y rest _ _ q hq with
      hq | ⟨rfl, hg, hnv, hcol⟩ | ⟨rfl, hg, hnv, hcol⟩ | ⟨rfl, hg, hnv, hcol⟩ |
        ⟨rfl, hg, hnv, hcol⟩
    · exact ⟨inv.stack_src q (List.mem_cons_of_mem _ hq),
        inv.stack_reg q (List.mem_cons_of_mem _ hq)⟩
    · have hqb : InBounds w h (x - 1, y) := ⟨by omega, hyb⟩
      have hqne : ((x - 1 : ℕ), y) ≠ (x, y) := by
        intro hcontra
        have := congrArg Prod.fst hcontra
        simp only at this
        omega
      have hqnv : (x - 1, y) ∉ visited := fun hc => hnv (Finset.mem_insert_of_mem hc)
      have hcd : cellAt w d0 (x - 1, y) = s := by
        have h1 : cellAt w (data.set (y * w + x) t) (x - 1, y) = s := hcol
        rw [hset_other _ hqb.1 hqne] at h1
        rw [← inv.unvis_same _ hqnv hqb]
        exact h1
      exact ⟨⟨hqb, hcd⟩, Relation.ReflTransGen.tail hxyreg
        ⟨Or.inl ⟨rfl, Or.inr (by omega)⟩, hqb, hcd⟩⟩
    · have hqb : InBounds w h (x + 1, y) := ⟨by omega, hyb⟩
      have hqne : ((x + 1 : ℕ), y) ≠ (x, y) := by
        intro hcontra
        have := congrArg Prod.fst hcontra
        simp only at this
        omega
      have hqnv : (x + 1, y) ∉ visited := fun hc => hnv (Finset.mem_insert_of_mem hc)
      have hcd : cellAt w d0 (x + 1, y) = s := by
        have h1 : cellAt w (data.set (y * w + x) t) (x + 1, y) = s := hcol
        rw [hset_other _ hqb.1 hqne] at h1
        rw [← inv.unvis_same _ hqnv hqb]
        exact h1
      exact ⟨⟨hqb, hcd⟩, Relation.ReflTransGen.tail hxyreg
        ⟨Or.inl ⟨rfl, Or.inl rfl⟩, hqb, hcd⟩⟩
    · have hqb : InBounds w h (x, y - 1) := ⟨hxb, by omega⟩
      have hqne : ((x : ℕ), y - 1) ≠ (x, y) := by
        intro hcontra
        have := congrArg Prod.snd hcontra
        simp only at this
        omega
      have hqnv : (x, y - 1) ∉ visited := fun hc => hnv (Finset.mem_insert_of_mem hc)
      have hcd : cellAt w d0 (x, y - 1) = s := by
        have h1 : cellAt w (data.set (y * w + x) t) (x, y - 1) = s := hcol
        rw [hset_other _ hqb.1 hqne] at h1
        rw [← inv.unvis_same _ hqnv hqb]
        exact h1
      exact ⟨⟨hqb, hcd⟩, Relation.ReflTransGen.tail hxyreg
        ⟨Or.inr ⟨rfl, Or.inr (by omega)⟩, hqb, hcd⟩⟩
    · have hqb : InBounds w h (x, y + 1) := ⟨hxb, by omega⟩
      have hqne : ((x : ℕ), y + 1) ≠ (x, y) := by
        intro hcontra
        have := congrArg Prod.snd hcontra
        simp only at this
        omega
      have hqnv : (x, y + 1) ∉ visited := fun hc => hnv (Finset.mem_insert_of_mem hc)
      have hcd : cellAt w d0 (x, y + 1) = s := by
        have h1 : cellAt w (data.set (y * w + x) t) (x, y + 1) = s := hcol
        rw [hset_other _ hqb.1 hqne] at h1
        rw [← inv.unvis_same _ hqnv hqb]
        exact h1
      exact ⟨⟨hqb, hcd⟩, Relation.ReflTransGen.tail hxyreg
        ⟨Or.inr ⟨rfl, Or.inl rfl⟩, hqb, hcd⟩⟩
  constructor
  · rw [List.length_set]
    exact inv.len_eq
  · intro p hp
    rcases Finset.mem_insert.mp hp with rfl | hp
    · exact ⟨hxyb, hxys, hset_self⟩
    · obtain ⟨hb, hs0, hdat⟩ := inv.vis_mem p hp
      have hpne : p ≠ (x, y) := fun hc => hv (hc ▸ hp)
      exact ⟨hb, hs0, (hset_other p hb.1 hpne).trans hdat⟩
  · intro p hp hpb
    have hpne : p ≠ (x, y) := fun hc => hp (hc ▸ Finset.mem_insert_self _ _)
    have hpnv : p ∉ visited := fun hc => hp (Finset.mem_insert_of_mem hc)
    rw [hset_other p hpb.1 hpne]
    exact inv.unvis_same p hpnv hpb
  · intro q hq
    exact (hnew q hq).1
  · intro q hq
    exact (hnew q hq).2
  · intro p hp
    rcases Finset.mem_insert.mp hp with rfl | hp
    · exact hxyreg
    · exact inv.vis_reg p hp
  · intro p q hp hadj hqb hqs
    rcases Finset.mem_insert.mp hp with rfl | hp
    · by_cases hqv : q ∈ insert (x, y) visited
      · exact Or.inl hqv
      · right
        obtain ⟨qx, qy⟩ := q
        have hqnv : (qx, qy) ∉ visited := fun hc => hqv (Finset.mem_insert_of_mem hc)
        have hqne : ((qx : ℕ), qy) ≠ (x, y) := fun hc => hqv (hc ▸ Finset.mem_insert_self _ _)
        have hq2 : cellAt w (data.set (y * w + x) t) (qx, qy) = s := by
          rw [hset_other _ hqb.1 hqne]
          rw [inv.unvis_same _ hqnv hqb]
          exact hqs
        rcases hadj with ⟨hrow, hcase⟩ | ⟨hcol, hcase⟩
        · simp only at hrow hcase
          obtain rfl : qy = y := hrow.symm
          rcases hcase with h1 | h1
          · obtain rfl : qx = x + 1 := h1
            have hxw : x + 1 < w := hqb.1
            apply floodPushes_mem_right
            refine ⟨by omega, ?_, hq2⟩
            intro hc
            rcases Finset.mem_insert.mp hc with hc1 | hc1
            · have h2 := congrArg Prod.fst hc1
              simp only at h2
              omega
            · exact hqnv hc1
          · obtain rfl : qx = x - 1 := by omega
            apply floodPushes_mem_left
            refine ⟨by omega, ?_, hq2⟩
            intro hc
            rcases Finset.mem_insert.mp hc with hc1 | hc1
            · have h2 := congrArg Prod.fst hc1
              simp only at h2
              omega
            · exact hqnv hc1
        · simp only at hcol hcase
          obtain rfl : qx = x := hcol.symm
          rcases hcase with h1 | h1
          · obtain rfl : qy = y + 1 := h1
            have hyh : y + 1 < h := hqb.2
            apply floodPushes_mem_down
            refine ⟨by omega, ?_, hq2⟩
            intro hc
            rcases Finset.mem_insert.mp hc with hc1 | hc1
            · have h2 := congrArg Prod.snd hc1
              simp only at h2
              omega
            · exact hqnv hc1
          · obtain rfl : qy = y - 1 := by omega
            apply floodPushes_mem_up
            refine ⟨by omega, ?_, hq2⟩
            intro hc
            rcases Finset.mem_insert.mp hc with hc1 | hc1
            · have h2 := congrArg Prod.snd hc1
              simp only at h2
              omega
            · exact hqnv hc1
    · rcases inv.frontier p q hp hadj hqb hqs with h1 | h1
      · exact Or.inl (Finset.mem_insert_of_mem h1)
      · rcases List.mem_cons.mp h1 with rfl | h1
        · exact Or.inl (Finset.mem_insert_self _ _)
        · exact Or.inr (floodPushes_rest _ _ _ _ _ _ _ _ _ h1)
  · rcases inv.origin_in with h1 | h1
    · exact Or.inl (Finset.mem_insert_of_mem h1)
    · rcases List.mem_cons.mp h1 with h1 | h1
      · exact Or.inl (h1 ▸ Finset.mem_insert_self _ _)
      · exact Or.inr (floodPushes_rest _ _ _ _ _ _ _ _ _ h1)

/-- A fresh in-bounds insertion keeps the visited set within the cell
count. -/
theorem visited_card_succ_le (w h : ℕ) (visited : Finset (ℕ × ℕ)) (x y : ℕ)
    (hall : ∀ p ∈ visited, InBounds w h p) (hxy : InBounds w h (x, y))
    (hv : (x, y) ∉ visited) : visited.card + 1 ≤ w * h := by
  have hsub : insert (x, y) visited ⊆ Finset.range w ×ˢ Finset.range h := by
    intro p hp
    rcases Finset.mem_insert.mp hp with rfl | hp
    · exact Finset.mem_product.mpr ⟨Finset.mem_range.mpr hxy.1, Finset.mem_range.mpr hxy.2⟩
    · have h1 := hall p hp
      exact Finset.mem_product.mpr ⟨Finset.mem_range.mpr h1.1, Finset.mem_range.mpr h1.2⟩
  have h1 := Finset.card_le_card hsub
  rw [Finset.card_insert_of_not_mem hv] at h1
  simpa [Finset.card_product, Finset.card_range] using h1

/-- Main correctness lemma for the flood-fill loop: under the invariant and
with fuel at least the decreasing measure, the loop recolors exactly the
origin region. -/
theorem floodLoop_main (w h s t : ℕ) (d0 : List ℕ) (hlen0 : d0.length = w * h) :
    ∀ (fuel : ℕ) (stack : List (ℕ × ℕ)) (visited : Finset (ℕ × ℕ)) (data : List ℕ),
      FloodInv w h s t d0 stack visited data →
      5 * (w * h - visited.card) + stack.length ≤ fuel →
      ∀ p, InBounds w h p →
        (Region w h d0 s p → cellAt w (floodLoop w h s t fuel stack visited data) p = t) ∧
        (¬Region w h d0 s p →
          cellAt w (floodLoop w h s t fuel stack visited data) p = cellAt w d0 p) := by
  intro fuel
  induction fuel with
  | zero =>
    intro stack visited data inv hfuel
    have hstack : stack = [] := by
      cases stack with
      | nil => rfl
      | cons a l =>
        simp only [List.length_cons] at hfuel
        omega
    subst hstack
    exact floodInv_final w h s t d0 data visited inv
  | succ n ih =>
    intro stack visited data inv hfuel
    match stack with
    | [] => exact floodInv_final w h s t d0 data visited inv
    | (x, y) :: rest =>
      by_cases hv : (x, y) ∈ visited
      · rw [floodLoop_skip_visited w h s t n x y rest visited data hv]
        apply ih rest visited data
        · exact {
            len_eq := inv.len_eq
            vis_mem := inv.vis_mem
            unvis_same := inv.unvis_same
            stack_src := fun p hp => inv.stack_src p (List.mem_cons_of_mem _ hp)
            stack_reg := fun p hp => inv.stack_reg p (List.mem_cons_of_mem _ hp)
            vis_reg := inv.vis_reg
            frontier := by
              intro p q hp hadj hqb hqs
              rcases inv.frontier p q hp hadj hqb hqs with h1 | h1
              · exact Or.inl h1
              · rcases List.mem_cons.mp h1 with rfl | h1
                · exact Or.inl hv
                · exact Or.inr h1
            origin_in := by
              rcases inv.origin_in with h1 | h1
              · exact Or.inl h1
              · rcases List.mem_cons.mp h1 with h1 | h1
                · left
                  rw [h1]
                  exact hv
                · exact Or.inr h1 }
        · simp only [List.length_cons] at hfuel
          omega
      · have hxin := inv.stack_src (x, y) (List.mem_cons_self _ _)
        have hs' : data.getD (y * w + x) 0 = s := by
          have h1 : cellAt w data (x, y) = cellAt w d0 (x, y) := inv.unvis_same _ hv hxin.1
          show cellAt w data (x, y) = s
          rw [h1]
          exact hxin.2
        rw [floodLoop_write w h s t n x y rest visited data hv hs']
        apply ih _ _ _ (floodInv_step w h s t d0 hlen0 x y rest visited data inv hv)
        have hcard : visited.card + 1 ≤ w * h :=
          visited_card_succ_le w h visited x y (fun p hp => (inv.vis_mem p hp).1) hxin.1 hv
        have hlen4 := floodPushes_length w h s x y rest (insert (x, y) visited)
          (data.set (y * w + x) t)
        rw [Finset.card_insert_of_not_mem hv]
        simp only [List.length_cons] at hfuel
        omega

/-- Flood-fill correctness at the `Grid` level: with a target different from
the origin color, the result holds the target exactly on the origin region
and the pre-fill values elsewhere. -/
theorem flood_fill_region (g : Grid) (c : ℕ) (hw : 0 < g.width) (hh : 0 < g.height)
    (hlen : g.data.length = g.width * g.height) (hne : getCell g 0 0 ≠ c) :
    ∀ p, InBounds g.width g.height p →
      (Region g.width g.height g.data (getCell g 0 0) p →
        cellAt g.width (flood_fill g c).data p = c) ∧
      (¬Region g.width g.height g.data (getCell g 0 0) p →
        cellAt g.width (flood_fill g c).data p = cellAt g.width g.data p) := by
  have hinv : FloodInv g.width g.height (getCell g 0 0) c g.data [(0, 0)] ∅ g.data := by
    refine ⟨rfl, ?_, ?_, ?_, ?_, ?_, ?_, ?_⟩
    · intro p hp
      exact absurd hp (Finset.not_mem_empty p)
    · intro p _ _
      rfl
    · intro p hp
      rcases List.mem_cons.mp hp with rfl | hp
      · exact ⟨⟨hw, hh⟩, rfl⟩
      · exact absurd hp (List.not_mem_nil p)
    · intro p hp
      rcases List.mem_cons.mp hp with rfl | hp
      · exact Relation.ReflTransGen.refl
      · exact absurd hp (List.not_mem_nil p)
    · intro p hp
      exact absurd hp (Finset.not_mem_empty p)
    · intro p q hp _ _ _
      exact absurd hp (Finset.not_mem_empty p)
    · exact Or.inr (List.mem_cons_self _ _)
  have hdata : (flood_fill g c).data =
      floodLoop g.width g.height (getCell g 0 0) c (floodFuel g) [(0, 0)] ∅ g.data := by
    simp only [flood_fill]
    rw [if_neg hne]
  have hmeas : 5 * (g.width * g.height - (∅ : Finset (ℕ × ℕ)).card) +
      ([((0 : ℕ), (0 : ℕ))] : List (ℕ × ℕ)).length ≤ floodFuel g := by
    simp [floodFuel]
  have hmain := floodLoop_main g.width g.height (getCell g 0 0) c g.data hlen
    (floodFuel g) [(0, 0)] ∅ g.data hinv hmeas
  intro p hp
  rw [hdata]
  exact hmain p hp

/-- Witness for C10 at a concrete grid and color. -/
theorem flood_fill_origin_idem_witness :
    0 < (Grid.mk 2 2 2 [0, 1, 1, 0]).width ∧
      0 < (Grid.mk 2 2 2 [0, 1, 1, 0]).height ∧
      (Grid.mk 2 2 2 [0, 1, 1, 0]).data.length =
        (Grid.mk 2 2 2 [0, 1, 1, 0]).width * (Grid.mk 2 2 2 [0, 1, 1, 0]).height ∧
      (getCell (flood_fill (Grid.mk 2 2 2 [0, 1, 1, 0]) 1) 0 0 = 1 ∧
        flood_fill (flood_fill (Grid.mk 2 2 2 [0, 1, 1, 0]) 1) 1 =
          flood_fill (Grid.mk 2 2 2 [0, 1, 1, 0]) 1) :=
  ⟨by decide, by decide, by decide,
    flood_fill_origin_idem (Grid.mk 2 2 2 [0, 1, 1, 0]) 1 (by decide) (by decide) (by decide)⟩

/-- Claim C3: for every non-empty grid and every target color different from
the origin cell's color, `flood_fill` sets to the target exactly the cells
of the maximal 4-connected region of origin-colored cells containing
`(0, 0)` and leaves every other cell unchanged; in particular on the 3×3
grid `[0,0,0,1,1,1,1,0,0]` the call `flood_fill 2` yields
`[2,2,2,1,1,1,1,0,0]`. -/
theorem flood_fill_region_correct (g : Grid) (c : ℕ) (hw : 0 < g.width)
    (hh : 0 < g.height) (hlen : g.data.length = g.width * g.height)
    (hne : getCell g 0 0 ≠ c) :
    (∀ p, InBounds g.width g.height p →
      (Region g.width g.height g.data (getCell g 0 0) p →
        cellAt g.width (flood_fill g c).data p = c) ∧
      (¬Region g.width g.height g.data (getCell g 0 0) p →
        cellAt g.width (flood_fill g c).data p = cellAt g.width g.data p)) ∧
    flood_fill (Grid.mk 3 3 3 [0, 0, 0, 1, 1, 1, 1, 0, 0]) 2 =
      Grid.mk 3 3 3 [2, 2, 2, 1, 1, 1, 1, 0, 0] :=
  ⟨flood_fill_region g c hw hh hlen hne, by decide⟩

/-- Witness for C3 at the 3×3 example grid with target color 2. -/
theorem flood_fill_region_correct_witness :
    0 < (Grid.mk 3 3 3 [0, 0, 0, 1, 1, 1, 1, 0, 0]).width ∧
      0 < (Grid.mk 3 3 3 [0, 0, 0, 1, 1, 1, 1, 0, 0]).height ∧
      (Grid.mk 3 3 3 [0, 0, 0, 1, 1, 1, 1, 0, 0]).data.length =
        (Grid.mk 3 3 3 [0, 0, 0, 1, 1, 1, 1, 0, 0]).width *
          (Grid.mk 3 3 3 [0, 0, 0, 1, 1, 1, 1, 0, 0]).height ∧
      getCell (Grid.mk 3 3 3 [0, 0, 0, 1, 1, 1, 1, 0, 0]) 0 0 ≠ 2 ∧
      ((∀ p, InBounds 3 3 p →
        (Region 3 3 [0, 0, 0, 1, 1, 1, 1, 0, 0]
            (getCell (Grid.mk 3 3 3 [0, 0, 0, 1, 1, 1, 1, 0, 0]) 0 0) p →
          cellAt 3 (flood_fill (Grid.mk 3 3 3 [0, 0, 0, 1, 1, 1, 1, 0, 0]) 2).data p = 2) ∧
        (¬Region 3 3 [0, 0, 0, 1, 1, 1, 1, 0, 0]
            (getCell (Grid.mk 3 3 3 [0, 0, 0, 1, 1, 1, 1, 0, 0]) 0 0) p →
          cellAt 3 (flood_fill (Grid.mk 3 3 3 [0, 0, 0, 1, 1, 1, 1, 0, 0]) 2).data p =
            cellAt 3 [0, 0, 0, 1, 1, 1, 1, 0, 0] p)) ∧
      flood_fill (Grid.mk 3 3 3 [0, 0, 0, 1, 1, 1, 1, 0, 0]) 2 =
        Grid.mk 3 3 3 [2, 2, 2, 1, 1, 1, 1, 0, 0]) :=
  ⟨by decide, by decide, by decide, by decide,
    flood_fill_region_correct (Grid.mk 3 3 3 [0, 0, 0, 1, 1, 1, 1, 0, 0]) 2
      (by decide) (by decide) (by decide) (by decide)⟩

/-- Mirror of Rust `str::split(c)`: splits at every separator, keeping empty
pieces (so the result is never the empty list). -/
def splitOnChar (c : Char) : List Char → List (List Char)
  | [] => [[]]
  | a :: rest =>
    let r := splitOnChar c rest
    if a = c then [] :: r
    else
      match r with
      | [] => [[a]]
      | b :: bs => (a :: b) :: bs

/-- Mirror of Rust `str::trim`: drop whitespace from both ends. -/
def trimChars (s : List Char) : List Char :=
  ((s.dropWhile Char.isWhitespace).reverse.dropWhile Char.isWhitespace).reverse

/-- Mirror of Rust `str::parse::<u8>()`: an optional leading `+`, then one or
more ASCII digits, value at most 255; anything else is a parse error. -/
def parseU8 (s : List Char) : Option ℕ :=
  let t := match s with
    | '+' :: rest => rest
    | _ => s
  if t = [] then none
  else if t.all Char.isDigit then
    let v := t.foldl (fun acc ch => acc * 10 + (ch.toNat - ('0').toNat)) 0
    if v ≤ 255 then some v else none
  else none

/-- Mirror of the inner column loop of `Grid::from_csv`: parse each value of
one row, store it at `data[(i, j)]` and track `colors = max colors (v + 1)`.
The source writes through `DMatrix` indexing, which panics when a row is
longer than the first row; `List.set` ignores such out-of-range writes, and
the theorems below only evaluate inputs that stay in range. -/
def fillRow (width i : ℕ) : ℕ → List (List Char) → List ℕ → ℕ → Option (List ℕ × ℕ)
  | _, [], data, colors => some (data, colors)
  | j, val :: rest, data, colors =>
    match parseU8 (trimChars val) with
    | none => none
    | some color =>
      fillRow width i (j + 1) rest (data.set (i * width + j) color)
        (max colors (color + 1))

/-- Mirror of the outer row loop of `Grid::from_csv`. -/
def fillRows (width : ℕ) : ℕ → List (List Char) → List ℕ → ℕ → Option (List ℕ × ℕ)
  | _, [], data, colors => some (data, colors)
  | i, row :: rest, data, colors =>
    match fillRow width i 0 (splitOnChar ',' row) data colors with
    | none => none
    | some (data2, colors2) => fillRows width (i + 1) rest data2 colors2

/-- Mirror of `Grid::from_csv`: split the trimmed content into rows, take the
column count of the first row as the width, fill a zero matrix from the
parsed values, and derive `colors` as one more than the maximum value. -/
def from_csv (content : List Char) : Option Grid :=
  let rows := splitOnChar '\n' (trimChars content)
  let height := rows.length
  match rows.head? with
  | none => none
  | some r0 =>
    let width := (splitOnChar ',' r0).length
    match fillRows width 0 rows (List.replicate (height * width) 0) 0 with
    | none => none
    | some (data, colors) => some (Grid.mk width height colors data)

/-- Claim C5 (refuted): on the ragged input `"0,1\n2"`, whose second row has
fewer columns than the first, `from_csv` does not fail: it silently returns
a grid whose missing cell is the zero-initialized default.  (The spec
requires the loader to reject any row with a different column count.) -/
theorem from_csv_short_row :
    from_csv (String.toList "0,1\n2") = some (Grid.mk 2 2 3 [0, 1, 2, 0]) := by
  decide

/-- Claim C9: on the sample 4×4 input of the repository's tests, `from_csv`
builds the expected grid, `solve` returns exactly `[2,1,2,0,1]`, and applying
that sequence completes the grid. -/
theorem solve_sample_input :
    from_csv (String.toList "1,2,0,0\n0,1,1,0\n2,2,0,1\n0,0,0,1") =
      some (Grid.mk 4 4 3 [1, 2, 0, 0, 0, 1, 1, 0, 2, 2, 0, 1, 0, 0, 0, 1]) ∧
    solve (Grid.mk 4 4 3 [1, 2, 0, 0, 0, 1, 1, 0, 2, 2, 0, 1, 0, 0, 0, 1]) =
      [2, 1, 2, 0, 1] ∧
    (apply_solution (Grid.mk 4 4 3 [1, 2, 0, 0, 0, 1, 1, 0, 2, 2, 0, 1, 0, 0, 0, 1])
      [2, 1, 2, 0, 1]).2 = true := by
  decide

/-- Claim C2 (refuted): `solve` is not minimal even on grids within 4×4 and
3 colors: on the 3×2 grid with rows `0,0,1` and `2,1,2` the two-move
sequence `[1, 2]` already completes the grid, yet `solve` returns a
three-move sequence. -/
theorem solve_not_minimal_counterexample :
    (apply_solution (Grid.mk 3 2 3 [0, 0, 1, 2, 1, 2]) [1, 2]).2 = true ∧
    (solve (Grid.mk 3 2 3 [0, 0, 1, 2, 1, 2])).length = 3 := by
  decide

/-- Claim C2 (amended): on small grids `solve` returns a sequence that
completes the grid, but its length need not equal the true minimum: on the
3×2 grid with rows `0,0,1` and `2,1,2` it returns the completing sequence
`[2, 1, 2]` of length 3 even though the two-move sequence `[1, 2]` also
completes the grid. -/
theorem solve_not_minimal_amended :
    solve (Grid.mk 3 2 3 [0, 0, 1, 2, 1, 2]) = [2, 1, 2] ∧
    (apply_solution (Grid.mk 3 2 3 [0, 0, 1, 2, 1, 2]) [2, 1, 2]).2 = true ∧
    (apply_solution (Grid.mk 3 2 3 [0, 0, 1, 2, 1, 2]) [1, 2]).2 = true := by
  decide

/-- Unfold equation of `solveLoop` for the bound-pruned pop. -/
theorem solveLoop_skip (g : Grid) (n : ℕ) (st : SearchState) (rest : List SearchState)
    (visited : List (List ℕ)) (best : List ℕ) (minLen : ℕ)
    (h1 : minLen ≤ st.moves.length) :
    solveLoop g (n + 1) (st :: rest) visited best minLen =
      solveLoop g n rest visited best minLen := by
  simp only [solveLoop]
  rw [if_pos h1]

/-- Unfold equation of `solveLoop` for a popped complete state: it becomes
the new best solution. -/
theorem solveLoop_record (g : Grid) (n : ℕ) (st : SearchState) (rest : List SearchState)
    (visited : List (List ℕ)) (best : List ℕ) (minLen : ℕ)
    (h1 : ¬minLen ≤ st.moves.length)
    (h2 : isComplete (Grid.mk g.width g.height g.colors st.grid_state) = true) :
    solveLoop g (n + 1) (st :: rest) visited best minLen =
      solveLoop g n rest visited st.moves st.moves.length := by
  simp only [solveLoop]
  rw [if_neg h1, if_pos h2, if_pos (Nat.lt_of_not_le h1)]

/-- Unfold equation of `solveLoop` for a popped incomplete state: it is
expanded. -/
theorem solveLoop_expand (g : Grid) (n : ℕ) (st : SearchState) (rest : List SearchState)
    (visited : List (List ℕ)) (best : List ℕ) (minLen : ℕ)
    (h1 : ¬minLen ≤ st.moves.length)
    (h2 : ¬isComplete (Grid.mk g.width g.height g.colors st.grid_state) = true) :
    solveLoop g (n + 1) (st :: rest) visited best minLen =
      solveLoop g n
        (expandState g (Grid.mk g.width g.height g.colors st.grid_state) st rest visited).1
        (expandState g (Grid.mk g.width g.height g.colors st.grid_state) st rest visited).2
        best minLen := by
  simp only [solveLoop]
  rw [if_neg h1, if_neg h2]

/-- Fold invariant: a property preserved by every step holds of the result. -/
theorem foldl_preserve {α β : Type} (P : α → Prop) (f : α → β → α) (l : List β)
    (init : α) (hinit : P init) (hstep : ∀ a b, b ∈ l → P a → P (f a b)) :
    P (l.foldl f init) := by
  induction l generalizing init with
  | nil => exact hinit
  | cons b bs ih =>
    exact ih (f init b) (hstep init b (List.mem_cons_self _ _) hinit)
      (fun a c hc ha => hstep a c (List.mem_cons_of_mem _ hc) ha)

/-- Expansion preserves the no-consecutive-repeats property of every stack
entry: a pushed move list extends the popped one by a color that differs
from its last entry. -/
theorem expandState_chain (g temp : Grid) (st : SearchState) (stack : List SearchState)
    (visited : List (List ℕ))
    (hst : List.Chain' (fun a b => a ≠ b) st.moves)
    (hstack : ∀ s ∈ stack, List.Chain' (fun a b => a ≠ b) s.moves) :
    ∀ s ∈ (expandState g temp st stack visited).1,
      List.Chain' (fun a b => a ≠ b) s.moves := by
  unfold expandState
  refine foldl_preserve
    (fun acc : List SearchState × List (List ℕ) =>
      ∀ s ∈ acc.1, List.Chain' (fun a b => a ≠ b) s.moves)
    _ _ _ hstack ?_
  intro a color _ ha
  dsimp only
  split_ifs with h1 h2
  · exact ha
  · exact ha
  · intro s hs
    rcases List.mem_cons.mp hs with rfl | hs
    · show List.Chain' (fun a b => a ≠ b) (st.moves ++ [color])
      refine List.chain'_append.mpr ⟨hst, List.chain'_singleton color, ?_⟩
      intro u hu v hv
      simp only [List.head?_cons, Option.mem_def, Option.some.injEq] at hv
      subst hv
      intro heq
      subst heq
      exact (not_or.mp h1).2 hu
    · exact ha s hs

/-- Every seeded search state carries a single move, hence trivially has no
consecutive repeats. -/
theorem initSearch_chain (g : Grid) :
    ∀ s ∈ (initSearch g).1, List.Chain' (fun a b => a ≠ b) s.moves := by
  unfold initSearch
  refine foldl_preserve
    (fun acc : List SearchState × List (List ℕ) =>
      ∀ s ∈ acc.1, List.Chain' (fun a b => a ≠ b) s.moves)
    _ _ _ (fun s hs => absurd hs (List.not_mem_nil s)) ?_
  intro a color _ ha
  dsimp only
  split_ifs with h1 h2
  · exact ha
  · intro s hs
    rcases List.mem_cons.mp hs with rfl | hs
    · exact List.chain'_singleton color
    · exact ha s hs
  · exact ha

/-- The search loop returns a move list with no consecutive repeats whenever
the current best and every stack entry satisfy that invariant. -/
theorem solveLoop_chain (g : Grid) :
    ∀ (fuel : ℕ) (stack : List SearchState) (visited : List (List ℕ))
      (best : List ℕ) (minLen : ℕ),
      (∀ s ∈ stack, List.Chain' (fun a b => a ≠ b) s.moves) →
      List.Chain' (fun a b => a ≠ b) best →
      List.Chain' (fun a b => a ≠ b) (solveLoop g fuel stack visited best minLen) := by
  intro fuel
  induction fuel with
  | zero =>
    intro stack visited best minLen _ hbest
    exact hbest
  | succ n ih =>
    intro stack visited best minLen hstack hbest
    match stack with
    | [] => exact hbest
    | st :: rest =>
      by_cases h1 : minLen ≤ st.moves.length
      · rw [solveLoop_skip g n st rest visited best minLen h1]
        exact ih rest visited best minLen
          (fun s hs => hstack s (List.mem_cons_of_mem _ hs)) hbest
      · by_cases h2 : isComplete (Grid.mk g.width g.height g.colors st.grid_state) = true
        · rw [solveLoop_record g n st rest visited best minLen h1 h2]
          exact ih rest visited st.moves st.moves.length
            (fun s hs => hstack s (List.mem_cons_of_mem _ hs))
            (hstack st (List.mem_cons_self _ _))
        · rw [solveLoop_expand g n st rest visited best minLen h1 h2]
          exact ih _ _ best minLen
            (expandState_chain g _ st rest visited (hstack st (List.mem_cons_self _ _))
              (fun s hs => hstack s (List.mem_cons_of_mem _ hs)))
            hbest

/-- Claim C7: the move sequence returned by `solve` never plays the same
color twice in a row (proved for every grid, in particular every well-formed
one). -/
theorem solve_no_consecutive (g : Grid) :
    List.Chain' (fun a b => a ≠ b) (solve g) := by
  unfold solve
  split_ifs with h
  · exact List.chain'_nil
  · exact solveLoop_chain g (solveFuel g) (initSearch g).1 (initSearch g).2 []
      (g.width * g.height) (initSearch_chain g) List.chain'_nil

/-- Enumeration of all cell lists of a given length with values below
`colors`; it bounds the number of distinct grid states the search can ever
insert into its visited set. -/
def allDatas (colors : ℕ) : ℕ → List (List ℕ)
  | 0 => [[]]
  | n + 1 => (List.range colors).flatMap
      (fun c => (allDatas colors n).map (fun l => c :: l))

/-- Summing a constant over a list. -/
theorem sum_map_const (l : List ℕ) (k : ℕ) : (l.map (fun _ => k)).sum = l.length * k := by
  induction l with
  | nil => simp
  | cons a t ih => simp [ih, Nat.succ_mul, Nat.add_comm]

/-- There are exactly `colors ^ n` such cell lists. -/
theorem allDatas_length (colors : ℕ) : ∀ n, (allDatas colors n).length = colors ^ n := by
  intro n
  induction n with
  | zero => rfl
  | succ n ih =>
    simp only [allDatas, List.length_flatMap]
    have h1 : (List.range colors).map (List.length ∘ fun c =>
        (allDatas colors n).map (fun l => c :: l)) =
        (List.range colors).map (fun _ => colors ^ n) := by
      apply List.map_congr_left
      intro c _
      simp [ih]
    rw [h1, sum_map_const, List.length_range, Nat.pow_succ, Nat.mul_comm]

/-- Characterization of membership in the enumeration. -/
theorem allDatas_mem (colors : ℕ) : ∀ (n : ℕ) (l : List ℕ),
    l ∈ allDatas colors n ↔ l.length = n ∧ ∀ v ∈ l, v < colors := by
  intro n
  induction n with
  | zero =>
    intro l
    constructor
    · intro hl
      simp only [allDatas, List.mem_singleton] at hl
      subst hl
      exact ⟨rfl, fun v hv => absurd hv (List.not_mem_nil v)⟩
    · rintro ⟨h1, -⟩
      simp only [allDatas, List.mem_singleton]
      exact List.length_eq_zero.mp h1
  | succ n ih =>
    intro l
    constructor
    · intro hl
      simp only [allDatas, List.mem_flatMap, List.mem_map, List.mem_range] at hl
      obtain ⟨c, hc, l', hl', rfl⟩ := hl
      obtain ⟨hlen, hvals⟩ := (ih l').mp hl'
      refine ⟨by simp [hlen], ?_⟩
      intro v hv
      rcases List.mem_cons.mp hv with rfl | hv
      · exact hc
      · exact hvals v hv
    · rintro ⟨h1, h2⟩
      match l with
      | [] => simp at h1
      | c :: l' =>
        simp only [allDatas, List.mem_flatMap, List.mem_map, List.mem_range]
        refine ⟨c, h2 c (List.mem_cons_self _ _), l', ?_, rfl⟩
        apply (ih l').mpr
        refine ⟨by simpa using h1, fun v hv => h2 v (List.mem_cons_of_mem _ hv)⟩

/-- The enumeration has no duplicates. -/
theorem allDatas_nodup (colors : ℕ) : ∀ n, (allDatas colors n).Nodup := by
  intro n
  induction n with
  | zero => simp [allDatas]
  | succ n ih =>
    rw [allDatas, List.nodup_flatMap]
    constructor
    · intro c _
      refine List.Nodup.map ?_ ih
      intro a b hab
      exact (List.cons.injEq c a c b).mp hab |>.2
    · have hr := List.nodup_range colors
      refine List.Pairwise.imp ?_ hr
      intro c c' hne l hl hl'
      simp only [List.mem_map] at hl hl'
      obtain ⟨t, -, rfl⟩ := hl
      obtain ⟨t', -, heq⟩ := hl'
      exact hne ((List.cons.injEq c' t' c t).mp heq).1.symm

/-- Every value of a `floodLoop` result is an input value or the target. -/
theorem floodLoop_mem (width height source target : ℕ) :
    ∀ (fuel : ℕ) (stack : List (ℕ × ℕ)) (visited : Finset (ℕ × ℕ)) (data : List ℕ)
      (v : ℕ), v ∈ floodLoop width height source target fuel stack visited data →
      v ∈ data ∨ v = target := by
  intro fuel
  induction fuel with
  | zero => intro stack visited data v hv; exact Or.inl hv
  | succ n ih =>
    intro stack visited data v hv
    match stack with
    | [] => exact Or.inl hv
    | (x, y) :: rest =>
      by_cases h1 : (x, y) ∈ visited
      · rw [floodLoop_skip_visited width height source target n x y rest visited data h1] at hv
        exact ih rest visited data v hv
      · by_cases h2 : data.getD (y * width + x) 0 = source
        · rw [floodLoop_write width height source target n x y rest visited data h1 h2] at hv
          rcases ih _ _ _ v hv with h3 | h3
          · exact List.mem_or_eq_of_mem_set h3
          · exact Or.inr h3
        · rw [floodLoop_skip_color width height source target n x y rest visited data h1 h2] at hv
          exact ih rest visited data v hv

/-- Values of a flood-filled grid are old values or the target color. -/
theorem flood_fill_data_mem (g : Grid) (c : ℕ) (v : ℕ)
    (hv : v ∈ (flood_fill g c).data) : v ∈ g.data ∨ v = c := by
  by_cases h : getCell g 0 0 = c
  · left
    simpa [flood_fill, h] using hv
  · have hd : (flood_fill g c).data =
        floodLoop g.width g.height (getCell g 0 0) c (floodFuel g) [(0, 0)] ∅ g.data := by
      simp only [flood_fill]
      rw [if_neg h]
    rw [hd] at hv
    exact floodLoop_mem g.width g.height (getCell g 0 0) c (floodFuel g) [(0, 0)] ∅ g.data v hv

/-- A cell list fit for grid `g`: correct length, values below the color
count. -/
def WfData (g : Grid) (d : List ℕ) : Prop :=
  d.length = g.width * g.height ∧ ∀ v ∈ d, v < g.colors

/-- Expansion preserves the search bookkeeping: the visited list stays
duplicate-free and well-formed, stack grids stay well-formed, and the stack
and visited lists grow by the same amount (each push inserts one fresh
visited state). -/
theorem expandState_spec (g temp : Grid) (st : SearchState) (rest : List SearchState)
    (visited : List (List ℕ))
    (htlen : temp.data.length = g.width * g.height)
    (htwf : ∀ v ∈ temp.data, v < g.colors)
    (hnodup : visited.Nodup)
    (hvwf : ∀ d ∈ visited, WfData g d)
    (hswf : ∀ s ∈ rest, WfData g s.grid_state) :
    (expandState g temp st rest visited).2.Nodup ∧
      (∀ d ∈ (expandState g temp st rest visited).2, WfData g d) ∧
      (∀ s ∈ (expandState g temp st rest visited).1, WfData g s.grid_state) ∧
      (expandState g temp st rest visited).1.length + visited.length =
        rest.length + (expandState g temp st rest visited).2.length := by
  unfold expandState
  refine foldl_preserve (fun acc : List SearchState × List (List ℕ) =>
      acc.2.Nodup ∧ (∀ d ∈ acc.2, WfData g d) ∧ (∀ s ∈ acc.1, WfData g s.grid_state) ∧
      acc.1.length + visited.length = rest.length + acc.2.length)
    _ _ _ ⟨hnodup, hvwf, hswf, rfl⟩ ?_
  intro a color hcol ha
  obtain ⟨ha1, ha2, ha3, ha4⟩ := ha
  dsimp only
  split_ifs with h1 h2
  · exact ⟨ha1, ha2, ha3, ha4⟩
  · exact ⟨ha1, ha2, ha3, ha4⟩
  · have hcolor : color < g.colors := List.mem_range.mp hcol
    have hflen : (flood_fill temp color).data.length = g.width * g.height := by
      rw [(flood_fill_fields temp color).2.2.2, htlen]
    have hfwf : ∀ v ∈ (flood_fill temp color).data, v < g.colors := by
      intro v hv
      rcases flood_fill_data_mem temp color v hv with h3 | h3
      · exact htwf v h3
      · exact h3 ▸ hcolor
    refine ⟨List.nodup_cons.mpr ⟨h2, ha1⟩, ?_, ?_, ?_⟩
    · intro d hd
      rcases List.mem_cons.mp hd with rfl | hd
      · exact ⟨hflen, hfwf⟩
      · exact ha2 d hd
    · intro s hs
      rcases List.mem_cons.mp hs with rfl | hs
      · exact ⟨hflen, hfwf⟩
      · exact ha3 s hs
    · simp only [List.length_cons]
      omega

/-- Seeding produces a duplicate-free well-formed visited list and a stack
of well-formed states of matching length. -/
theorem initSearch_spec (g : Grid) (hlen : g.data.length = g.width * g.height)
    (hwfd : ∀ v ∈ g.data, v < g.colors) :
    (initSearch g).2.Nodup ∧ (∀ d ∈ (initSearch g).2, WfData g d) ∧
      (∀ s ∈ (initSearch g).1, WfData g s.grid_state) ∧
      (initSearch g).1.length = (initSearch g).2.length := by
  unfold initSearch
  refine foldl_preserve (fun acc : List SearchState × List (List ℕ) =>
      acc.2.Nodup ∧ (∀ d ∈ acc.2, WfData g d) ∧ (∀ s ∈ acc.1, WfData g s.grid_state) ∧
      acc.1.length = acc.2.length)
    _ _ _ ⟨List.nodup_nil, fun d hd => absurd hd (List.not_mem_nil d),
      fun s hs => absurd hs (List.not_mem_nil s), rfl⟩ ?_
  intro a color hcol ha
  obtain ⟨ha1, ha2, ha3, ha4⟩ := ha
  dsimp only
  split_ifs with h1 h2
  · exact ⟨ha1, ha2, ha3, ha4⟩
  · have hcolor : color < g.colors := List.mem_range.mp hcol
    have hflen : (flood_fill g color).data.length = g.width * g.height := by
      rw [(flood_fill_fields g color).2.2.2, hlen]
    have hfwf : ∀ v ∈ (flood_fill g color).data, v < g.colors := by
      intro v hv
      rcases flood_fill_data_mem g color v hv with h3 | h3
      · exact hwfd v h3
      · exact h3 ▸ hcolor
    refine ⟨List.nodup_cons.mpr ⟨h2, ha1⟩, ?_, ?_, ?_⟩
    · intro d hd
      rcases List.mem_cons.mp hd with rfl | hd
      · exact ⟨hflen, hfwf⟩
      · exact ha2 d hd
    · intro s hs
      rcases List.mem_cons.mp hs with rfl | hs
      · exact ⟨hflen, hfwf⟩
      · exact ha3 s hs
    · simp only [List.length_cons, ha4]
  · exact ⟨ha1, ha2, ha3, ha4⟩

/-- The visited list never exceeds the number of possible grid states. -/
theorem visited_le_total (g : Grid) (visited : List (List ℕ))
    (hnodup : visited.Nodup) (hwf : ∀ d ∈ visited, WfData g d) :
    visited.length ≤ g.colors ^ (g.width * g.height) := by
  have hsub : visited ⊆ allDatas g.colors (g.width * g.height) := by
    intro d hd
    exact (allDatas_mem g.colors _ d).mpr (hwf d hd)
  have h1 := (List.subperm_of_subset hnodup hsub).length_le
  rwa [allDatas_length] at h1

/-- Expansion only grows the visited list. -/
theorem expandState_visited_le (g temp : Grid) (st : SearchState)
    (rest : List SearchState) (visited : List (List ℕ)) :
    visited.length ≤ (expandState g temp st rest visited).2.length := by
  unfold expandState
  refine foldl_preserve (fun acc : List SearchState × List (List ℕ) =>
      visited.length ≤ acc.2.length) _ _ _ le_rfl ?_
  intro a color _ ha
  dsimp only
  split_ifs with h1 h2
  · exact ha
  · exact ha
  · simp only [List.length_cons]
    omega

/-- One unit of extra fuel is irrelevant once the fuel dominates the loop
measure `2 * (states remaining) + stack length`: the loop has already
exhausted its work list by then. -/
theorem solveLoop_fuel_succ (g : Grid) :
    ∀ (n : ℕ) (stack : List SearchState) (visited : List (List ℕ))
      (best : List ℕ) (minLen : ℕ),
      visited.Nodup → (∀ d ∈ visited, WfData g d) →
      (∀ s ∈ stack, WfData g s.grid_state) →
      2 * (g.colors ^ (g.width * g.height) - visited.length) + stack.length ≤ n →
      solveLoop g (n + 1) stack visited best minLen =
        solveLoop g n stack visited best minLen := by
  intro n
  induction n with
  | zero =>
    intro stack visited best minLen _ _ _ hm
    have hstack : stack = [] := by
      cases stack with
      | nil => rfl
      | cons a l =>
        simp only [List.length_cons] at hm
        omega
    subst hstack
    rfl
  | succ n ih =>
    intro stack visited best minLen hnd hvw hsw hm
    match stack with
    | [] => rfl
    | st :: rest =>
      by_cases h1 : minLen ≤ st.moves.length
      · rw [solveLoop_skip g (n + 1) st rest visited best minLen h1,
          solveLoop_skip g n st rest visited best minLen h1]
        apply ih rest visited best minLen hnd hvw
          (fun s hs => hsw s (List.mem_cons_of_mem _ hs))
        simp only [List.length_cons] at hm
        omega
      · by_cases h2 : isComplete (Grid.mk g.width g.height g.colors st.grid_state) = true
        · rw [solveLoop_record g (n + 1) st rest visited best minLen h1 h2,
            solveLoop_record g n st rest visited best minLen h1 h2]
          apply ih rest visited st.moves st.moves.length hnd hvw
            (fun s hs => hsw s (List.mem_cons_of_mem _ hs))
          simp only [List.length_cons] at hm
          omega
        · rw [solveLoop_expand g (n + 1) st rest visited best minLen h1 h2,
            solveLoop_expand g n st rest visited best minLen h1 h2]
          have hst := hsw st (List.mem_cons_self _ _)
          obtain ⟨hnd2, hvw2, hsw2, hlen2⟩ := expandState_spec g
            (Grid.mk g.width g.height g.colors st.grid_state) st rest visited
            hst.1 hst.2 hnd hvw (fun s hs => hsw s (List.mem_cons_of_mem _ hs))
          apply ih _ _ best minLen hnd2 hvw2 hsw2
          have hv2le := visited_le_total g _ hnd2 hvw2
          have hmono := expandState_visited_le g
            (Grid.mk g.width g.height g.colors st.grid_state) st rest visited
          simp only [List.length_cons] at hm
          omega

/-- Fuel above the measure is irrelevant: the search result has stabilized. -/
theorem solveLoop_fuel_ge (g : Grid) (stack : List SearchState)
    (visited : List (List ℕ)) (best : List ℕ) (minLen : ℕ)
    (hnd : visited.Nodup) (hvw : ∀ d ∈ visited, WfData g d)
    (hsw : ∀ s ∈ stack, WfData g s.grid_state) (m : ℕ)
    (hm : 2 * (g.colors ^ (g.width * g.height) - visited.length) + stack.length ≤ m) :
    ∀ fuel, m ≤ fuel →
      solveLoop g fuel stack visited best minLen =
        solveLoop g m stack visited best minLen := by
  intro fuel
  refine Nat.le_induction rfl ?_ fuel
  intro k hk ih
  rw [← ih]
  exact solveLoop_fuel_succ g k stack visited best minLen hnd hvw hsw (le_trans hm hk)

/-- The search never returns a move list longer than the running bound. -/
theorem solveLoop_len_le (g : Grid) :
    ∀ (fuel : ℕ) (stack : List SearchState) (visited : List (List ℕ))
      (best : List ℕ) (minLen : ℕ),
      best.length ≤ g.width * g.height → minLen ≤ g.width * g.height →
      (solveLoop g fuel stack visited best minLen).length ≤ g.width * g.height := by
  intro fuel
  induction fuel with
  | zero =>
    intro stack visited best minLen hb _
    exact hb
  | succ n ih =>
    intro stack visited best minLen hb hm
    match stack with
    | [] => exact hb
    | st :: rest =>
      by_cases h1 : minLen ≤ st.moves.length
      · rw [solveLoop_skip g n st rest visited best minLen h1]
        exact ih rest visited best minLen hb hm
      · by_cases h2 : isComplete (Grid.mk g.width g.height g.colors st.grid_state) = true
        · rw [solveLoop_record g n st rest visited best minLen h1 h2]
          have h3 : st.moves.length ≤ g.width * g.height := by
            have := Nat.lt_of_not_le h1
            omega
          exact ih rest visited st.moves st.moves.length h3 h3
        · rw [solveLoop_expand g n st rest visited best minLen h1 h2]
          exact ih _ _ best minLen hb hm

/-- Claim C8: for every well-formed grid the search work list is driven to
exhaustion within the chosen fuel (adding fuel beyond `solveFuel` leaves the
result unchanged, since each distinct grid state is inserted into the
visited list at most once, bounding the loop by
`2 * colors ^ (width * height) + stack`), and the returned move sequence is
never longer than the initial upper bound `width * height`. -/
theorem solve_terminates (g : Grid) (hwf : WellFormed g) :
    (∀ fuel, solveFuel g ≤ fuel →
      solveLoop g fuel (initSearch g).1 (initSearch g).2 [] (g.width * g.height) =
        solveLoop g (solveFuel g) (initSearch g).1 (initSearch g).2 []
          (g.width * g.height)) ∧
    (solve g).length ≤ g.width * g.height := by
  obtain ⟨hlen, hvals, hcpos⟩ := hwf
  obtain ⟨hnd, hvw, hsw, hleq⟩ := initSearch_spec g hlen hvals
  constructor
  · intro fuel hf
    have hv0 := visited_le_total g _ hnd hvw
    apply solveLoop_fuel_ge g (initSearch g).1 (initSearch g).2 []
      (g.width * g.height) hnd hvw hsw (solveFuel g) ?_ fuel hf
    simp only [solveFuel]
    omega
  · unfold solve
    split_ifs with h
    · simp
    · exact solveLoop_len_le g (solveFuel g) (initSearch g).1 (initSearch g).2 []
        (g.width * g.height) (by simp) le_rfl

/-- Witness for C8 at a concrete well-formed grid. -/
theorem solve_terminates_witness :
    WellFormed (Grid.mk 2 2 2 [0, 1, 1, 0]) ∧
      ((∀ fuel, solveFuel (Grid.mk 2 2 2 [0, 1, 1, 0]) ≤ fuel →
        solveLoop (Grid.mk 2 2 2 [0, 1, 1, 0]) fuel
            (initSearch (Grid.mk 2 2 2 [0, 1, 1, 0])).1
            (initSearch (Grid.mk 2 2 2 [0, 1, 1, 0])).2 []
            ((Grid.mk 2 2 2 [0, 1, 1, 0]).width * (Grid.mk 2 2 2 [0, 1, 1, 0]).height) =
          solveLoop (Grid.mk 2 2 2 [0, 1, 1, 0]) (solveFuel (Grid.mk 2 2 2 [0, 1, 1, 0]))
            (initSearch (Grid.mk 2 2 2 [0, 1, 1, 0])).1
            (initSearch (Grid.mk 2 2 2 [0, 1, 1, 0])).2 []
            ((Grid.mk 2 2 2 [0, 1, 1, 0]).width * (Grid.mk 2 2 2 [0, 1, 1, 0]).height)) ∧
      (solve (Grid.mk 2 2 2 [0, 1, 1, 0])).length ≤
        (Grid.mk 2 2 2 [0, 1, 1, 0]).width * (Grid.mk 2 2 2 [0, 1, 1, 0]).height) :=
  ⟨by decide, solve_terminates (Grid.mk 2 2 2 [0, 1, 1, 0]) (by decide)⟩

/-- Origin cell color of a raw cell list (the color at `data[(0, 0)]`). -/
def originColor (d : List ℕ) : ℕ :=
  d.getD 0 0

/-- The grid `solve` reconstructs from a stored cell matrix. -/
def tempGrid (g : Grid) (d : List ℕ) : Grid :=
  Grid.mk g.width g.height g.colors d

/-- Cell matrix obtained by one flood-fill move on a stored matrix. -/
def childData (g : Grid) (d : List ℕ) (c : ℕ) : List ℕ :=
  (flood_fill (tempGrid g d) c).data

/-- The origin region of a raw cell list: the maximal 4-connected
origin-colored component containing `(0, 0)`. -/
def Rg (w h : ℕ) (d : List ℕ) : ℕ × ℕ → Prop :=
  Region w h d (originColor d)

/-- A search state is canonical when it agrees with the initial grid outside
its own origin region (the search only ever recolors origin regions). -/
def CanonData (g : Grid) (d : List ℕ) : Prop :=
  d.length = g.width * g.height ∧
    ∀ p, InBounds g.width g.height p → ¬Rg g.width g.height d p →
      cellAt g.width d p = cellAt g.width g.data p

/-- Coordinate of a row-major index. -/
def coordOf (w i : ℕ) : ℕ × ℕ :=
  (i % w, i / w)

/-- Each index below `w * h` decodes to an in-bounds coordinate. -/
theorem coordOf_inBounds (w h i : ℕ) (hw : 0 < w) (hi : i < w * h) :
    InBounds w h (coordOf w i) := by
  constructor
  · exact Nat.mod_lt i hw
  · show i / w < h
    exact Nat.div_lt_of_lt_mul hi

/-- Reading a list at an index is reading the cell at its coordinate. -/
theorem getD_coordOf (w : ℕ) (d : List ℕ) (i : ℕ) :
    cellAt w d (coordOf w i) = d.getD i 0 := by
  unfold cellAt coordOf
  simp only
  have h1 : i / w * w + i % w = i := by
    rw [Nat.mul_comm]
    exact Nat.div_add_mod i w
  rw [h1]

/-- Lists of the same grid shape that agree on all in-bounds cells are
equal. -/
theorem data_ext (w h : ℕ) (d d' : List ℕ) (hw : 0 < w)
    (hd : d.length = w * h) (hd' : d'.length = w * h)
    (hptw : ∀ p, InBounds w h p → cellAt w d p = cellAt w d' p) : d = d' := by
  apply List.ext_getElem (by rw [hd, hd'])
  intro i h1 h2
  have hi : i < w * h := by rw [← hd]; exact h1
  have := hptw (coordOf w i) (coordOf_inBounds w h i hw hi)
  rw [getD_coordOf w d i, getD_coordOf w d' i] at this
  rw [List.getD_eq_getElem?_getD, List.getD_eq_getElem?_getD] at this
  rw [List.getElem?_eq_getElem h1, List.getElem?_eq_getElem h2] at this
  simpa using this

/-- The origin cell read through `getCell` is `originColor` of the data. -/
theorem getCell_originColor (X : Grid) : getCell X 0 0 = originColor X.data := by
  unfold getCell originColor
  congr 1
  simp

/-- Cells of the origin region hold the origin color. -/
theorem cellAt_region_origin (w h : ℕ) (d : List ℕ) (p : ℕ × ℕ)
    (hreg : Rg w h d p) : cellAt w d p = originColor d := by
  unfold Rg Region at hreg
  induction hreg with
  | refl =>
    show d.getD (0 * w + 0) 0 = originColor d
    unfold originColor
    congr 1
    simp
  | tail hab step ih =>
    exact step.2.2

/-- One-move behavior on stored matrices: region cells become the target,
other cells keep their value, and the no-move target is the identity. -/
theorem child_point (g : Grid) (d : List ℕ) (c : ℕ) (hw : 0 < g.width)
    (hh : 0 < g.height) (hlen : d.length = g.width * g.height) :
    (∀ p, InBounds g.width g.height p → Rg g.width g.height d p →
        originColor d ≠ c → cellAt g.width (childData g d c) p = c) ∧
      (∀ p, InBounds g.width g.height p → ¬Rg g.width g.height d p →
        cellAt g.width (childData g d c) p = cellAt g.width d p) ∧
      (originColor d = c → childData g d c = d) := by
  have hoc : getCell (tempGrid g d) 0 0 = originColor d :=
    getCell_originColor (tempGrid g d)
  refine ⟨?_, ?_, ?_⟩
  · intro p hp hreg hne
    have hne2 : getCell (tempGrid g d) 0 0 ≠ c := by rw [hoc]; exact hne
    have h1 := (flood_fill_region (tempGrid g d) c hw hh hlen hne2 p hp).1
    apply h1
    show Region g.width g.height d (getCell (tempGrid g d) 0 0) p
    rw [hoc]
    exact hreg
  · intro p hp hreg
    by_cases hne : originColor d = c
    · show cellAt g.width (flood_fill (tempGrid g d) c).data p = cellAt g.width d p
      rw [show flood_fill (tempGrid g d) c = tempGrid g d by
        rw [← hne] at *
        have := flood_fill_noop (tempGrid g d) hw hh
        rw [hoc] at this
        exact this]
      rfl
    · have hne2 : getCell (tempGrid g d) 0 0 ≠ c := by rw [hoc]; exact hne
      have h1 := (flood_fill_region (tempGrid g d) c hw hh hlen hne2 p hp).2
      apply h1
      show ¬Region g.width g.height d (getCell (tempGrid g d) 0 0) p
      rw [hoc]
      exact hreg
  · intro he
    show (flood_fill (tempGrid g d) c).data = d
    rw [show flood_fill (tempGrid g d) c = tempGrid g d by
      rw [← he] at *
      have := flood_fill_noop (tempGrid g d) hw hh
      rw [hoc] at this
      exact this]
    rfl

/-- The move result has the same shape. -/
theorem childData_length (g : Grid) (d : List ℕ) (c : ℕ) :
    (childData g d c).length = d.length :=
  (flood_fill_fields (tempGrid g d) c).2.2.2

/-- After a move the origin holds the played color. -/
theorem childData_origin (g : Grid) (d : List ℕ) (c : ℕ) (hw : 0 < g.width)
    (hh : 0 < g.height) (hlen : d.length = g.width * g.height) :
    originColor (childData g d c) = c := by
  have h1 := flood_fill_origin (tempGrid g d) c hw hh hlen
  rw [getCell_originColor] at h1
  exact h1

/-- The origin region only grows under a move. -/
theorem Rg_mono (g : Grid) (d : List ℕ) (c : ℕ) (hw : 0 < g.width)
    (hh : 0 < g.height) (hlen : d.length = g.width * g.height)
    (hne : originColor d ≠ c) (p : ℕ × ℕ) (hreg : Rg g.width g.height d p) :
    Rg g.width g.height (childData g d c) p := by
  have horig := childData_origin g d c hw hh hlen
  unfold Rg Region at hreg ⊢
  rw [horig]
  induction hreg with
  | refl => exact Relation.ReflTransGen.refl
  | tail hab step ih =>
    refine Relation.ReflTransGen.tail ih ⟨step.1, step.2.1, ?_⟩
    have hregb : Rg g.width g.height d _ := Relation.ReflTransGen.tail hab step
    exact (child_point g d c hw hh hlen).1 _ step.2.1 hregb hne

/-- Moves preserve canonicality. -/
theorem canon_child (g : Grid) (d : List ℕ) (c : ℕ) (hw : 0 < g.width)
    (hh : 0 < g.height) (hc : CanonData g d) : CanonData g (childData g d c) := by
  obtain ⟨hlen, hout⟩ := hc
  by_cases he : originColor d = c
  · rw [(child_point g d c hw hh hlen).2.2 he]
    exact ⟨hlen, hout⟩
  · refine ⟨(childData_length g d c).trans hlen, ?_⟩
    intro p hp hnreg
    have hnd : ¬Rg g.width g.height d p :=
      fun hr => hnreg (Rg_mono g d c hw hh hlen he p hr)
    rw [(child_point g d c hw hh hlen).2.1 p hp hnd]
    exact hout p hp hnd

/-- Children of canonical states are determined by the origin region: two
canonical states with the same region produce the same matrix under the same
move. -/
theorem children_eq (g : Grid) (d d2 : List ℕ) (hw : 0 < g.width)
    (hh : 0 < g.height) (h1 : CanonData g d) (h2 : CanonData g d2)
    (hr : ∀ p, InBounds g.width g.height p →
      (Rg g.width g.height d p ↔ Rg g.width g.height d2 p))
    (c : ℕ) (hc1 : originColor d ≠ c) (hc2 : originColor d2 ≠ c) :
    childData g d c = childData g d2 c := by
  obtain ⟨hlen, hout⟩ := h1
  obtain ⟨hlen2, hout2⟩ := h2
  apply data_ext g.width g.height _ _ hw
    ((childData_length g d c).trans hlen) ((childData_length g d2 c).trans hlen2)
  intro p hp
  by_cases hreg : Rg g.width g.height d p
  · rw [(child_point g d c hw hh hlen).1 p hp hreg hc1,
      (child_point g d2 c hw hh hlen2).1 p hp ((hr p hp).mp hreg) hc2]
  · have hreg2 : ¬Rg g.width g.height d2 p := fun h3 => hreg ((hr p hp).mpr h3)
    rw [(child_point g d c hw hh hlen).2.1 p hp hreg,
      (child_point g d2 c hw hh hlen2).2.1 p hp hreg2,
      hout p hp hreg, hout2 p hp hreg2]

/-- Playing another canonical state's origin color from a state with the
same region reproduces that state exactly. -/
theorem child_at_origin_eq (g : Grid) (d d2 : List ℕ) (hw : 0 < g.width)
    (hh : 0 < g.height) (h1 : CanonData g d) (h2 : CanonData g d2)
    (hr : ∀ p, InBounds g.width g.height p →
      (Rg g.width g.height d p ↔ Rg g.width g.height d2 p)) :
    childData g d (originColor d2) = d2 := by
  obtain ⟨hlen, hout⟩ := h1
  obtain ⟨hlen2, hout2⟩ := h2
  by_cases he : originColor d = originColor d2
  · have hdd : d = d2 := by
      apply data_ext g.width g.height d d2 hw hlen hlen2
      intro p hp
      by_cases hreg : Rg g.width g.height d p
      · rw [cellAt_region_origin g.width g.height d p hreg,
          cellAt_region_origin g.width g.height d2 p ((hr p hp).mp hreg), he]
      · have hreg2 : ¬Rg g.width g.height d2 p := fun h3 => hreg ((hr p hp).mpr h3)
        rw [hout p hp hreg, hout2 p hp hreg2]
    rw [← he, (child_point g d (originColor d) hw hh hlen).2.2 rfl, hdd]
  · apply data_ext g.width g.height _ _ hw
      ((childData_length g d _).trans hlen) hlen2
    intro p hp
    by_cases hreg : Rg g.width g.height d p
    · rw [(child_point g d (originColor d2) hw hh hlen).1 p hp hreg he,
        cellAt_region_origin g.width g.height d2 p ((hr p hp).mp hreg)]
    · have hreg2 : ¬Rg g.width g.height d2 p := fun h3 => hreg ((hr p hp).mpr h3)
      rw [(child_point g d (originColor d2) hw hh hlen).2.1 p hp hreg,
        hout p hp hreg, hout2 p hp hreg2]

/-- A cell list is complete when every cell holds the origin color (the
data-level reading of `is_complete`). -/
def completeData (d : List ℕ) : Prop :=
  ∀ v ∈ d, v = originColor d

/-- `is_complete` on any grid decides `completeData` of its cell list. -/
theorem isComplete_iff (X : Grid) : isComplete X = true ↔ completeData X.data := by
  unfold isComplete completeData
  rw [List.all_eq_true]
  have h1 : getCell X 0 0 = originColor X.data := getCell_originColor X
  constructor
  · intro h v hv
    have h2 := h v hv
    rw [h1] at h2
    exact eq_of_beq h2
  · intro h v hv
    rw [h1]
    exact beq_iff_eq.mpr (h v hv)

/-- Indices whose cell changes under a flood fill to a throwaway color
distinct from the origin color: exactly the origin region's indices.  This
gives a computable measure of the origin region. -/
def regionIdx (g : Grid) (d : List ℕ) : Finset ℕ :=
  (Finset.range (g.width * g.height)).filter
    (fun i => (childData g d (originColor d + 1)).getD i 0 ≠ d.getD i 0)

/-- Size of the origin region, as the number of changed indices. -/
def regionCard (g : Grid) (d : List ℕ) : ℕ :=
  (regionIdx g d).card

/-- The changed indices are exactly the in-range indices whose coordinate
lies in the origin region. -/
theorem mem_regionIdx (g : Grid) (d : List ℕ) (hw : 0 < g.width) (hh : 0 < g.height)
    (hlen : d.length = g.width * g.height) (i : ℕ) :
    i ∈ regionIdx g d ↔
      i < g.width * g.height ∧ Rg g.width g.height d (coordOf g.width i) := by
  unfold regionIdx
  rw [Finset.mem_filter, Finset.mem_range]
  refine and_congr_right fun hi => ?_
  have hp := coordOf_inBounds g.width g.height i hw hi
  constructor
  · intro hdiff
    by_contra hnr
    rw [← getD_coordOf g.width (childData g d (originColor d + 1)) i,
      ← getD_coordOf g.width d i] at hdiff
    exact hdiff ((child_point g d (originColor d + 1) hw hh hlen).2.1 _ hp hnr)
  · intro hr
    rw [← getD_coordOf g.width (childData g d (originColor d + 1)) i,
      ← getD_coordOf g.width d i,
      (child_point g d (originColor d + 1) hw hh hlen).1 _ hp hr (by omega),
      cellAt_region_origin g.width g.height d _ hr]
    omega

/-- The origin region never exceeds the cell count. -/
theorem regionCard_le (g : Grid) (d : List ℕ) :
    regionCard g d ≤ g.width * g.height := by
  unfold regionCard regionIdx
  exact le_trans (Finset.card_filter_le _ _) (le_of_eq (Finset.card_range _))

/-- The origin region holds at least the origin cell. -/
theorem regionCard_pos (g : Grid) (d : List ℕ) (hw : 0 < g.width) (hh : 0 < g.height)
    (hlen : d.length = g.width * g.height) : 1 ≤ regionCard g d := by
  unfold regionCard
  rw [Nat.succ_le_iff, Finset.card_pos]
  refine ⟨0, (mem_regionIdx g d hw hh hlen 0).mpr ⟨Nat.mul_pos hw hh, ?_⟩⟩
  show Rg g.width g.height d (0 % g.width, 0 / g.width)
  rw [Nat.zero_mod, Nat.zero_div]
  exact Relation.ReflTransGen.refl

/-- Decoding the row-major index of an in-bounds coordinate returns the
coordinate. -/
theorem coordOf_index (w x y : ℕ) (hx : x < w) : coordOf w (y * w + x) = (x, y) := by
  have hw : 0 < w := by omega
  unfold coordOf
  refine Prod.ext ?_ ?_
  · show (y * w + x) % w = x
    rw [Nat.mul_comm y w, Nat.mul_add_mod]
    exact Nat.mod_eq_of_lt hx
  · show (y * w + x) / w = y
    rw [Nat.add_comm, Nat.add_mul_div_right x y hw, Nat.div_eq_of_lt hx]
    exact Nat.zero_add y

/-- Region growth under a move: the changed-index set only grows. -/
theorem regionCard_mono (g : Grid) (d : List ℕ) (c : ℕ) (hw : 0 < g.width)
    (hh : 0 < g.height) (hlen : d.length = g.width * g.height)
    (hne : originColor d ≠ c) :
    regionCard g d ≤ regionCard g (childData g d c) := by
  unfold regionCard
  apply Finset.card_le_card
  intro i hi
  rw [mem_regionIdx g d hw hh hlen i] at hi
  rw [mem_regionIdx g (childData g d c) hw hh ((childData_length g d c).trans hlen) i]
  exact ⟨hi.1, Rg_mono g d c hw hh hlen hne _ hi.2⟩

/-- A move that absorbs an in-bounds cell outside the old region grows the
origin region strictly. -/
theorem regionCard_strict (g : Grid) (d : List ℕ) (c : ℕ) (hw : 0 < g.width)
    (hh : 0 < g.height) (hlen : d.length = g.width * g.height)
    (hne : originColor d ≠ c) (q : ℕ × ℕ) (hq : InBounds g.width g.height q)
    (hq1 : Rg g.width g.height (childData g d c) q)
    (hq2 : ¬Rg g.width g.height d q) :
    regionCard g d + 1 ≤ regionCard g (childData g d c) := by
  unfold regionCard
  rw [Nat.add_one_le_iff]
  apply Finset.card_lt_card
  rw [Finset.ssubset_iff_of_subset]
  · refine ⟨q.2 * g.width + q.1, ?_, ?_⟩
    · rw [mem_regionIdx g (childData g d c) hw hh ((childData_length g d c).trans hlen)]
      refine ⟨index_lt g.width g.height q.1 q.2 hq.1 hq.2, ?_⟩
      rw [coordOf_index g.width q.1 q.2 hq.1]
      exact hq1
    · rw [mem_regionIdx g d hw hh hlen]
      rw [coordOf_index g.width q.1 q.2 hq.1]
      intro hmem
      exact hq2 hmem.2
  · intro i hi
    rw [mem_regionIdx g d hw hh hlen i] at hi
    rw [mem_regionIdx g (childData g d c) hw hh ((childData_length g d c).trans hlen) i]
    exact ⟨hi.1, Rg_mono g d c hw hh hlen hne _ hi.2⟩

/-- Cell lists with pointwise-equal origin regions have equal region size. -/
theorem regionCard_congr (g : Grid) (d d2 : List ℕ) (hw : 0 < g.width)
    (hh : 0 < g.height) (hlen : d.length = g.width * g.height)
    (hlen2 : d2.length = g.width * g.height)
    (hr : ∀ p, InBounds g.width g.height p →
      (Rg g.width g.height d p ↔ Rg g.width g.height d2 p)) :
    regionCard g d = regionCard g d2 := by
  unfold regionCard
  congr 1
  apply Finset.ext
  intro i
  rw [mem_regionIdx g d hw hh hlen i, mem_regionIdx g d2 hw hh hlen2 i]
  constructor
  · rintro ⟨hi, hreg⟩
    exact ⟨hi, (hr _ (coordOf_inBounds g.width g.height i hw hi)).mp hreg⟩
  · rintro ⟨hi, hreg⟩
    exact ⟨hi, (hr _ (coordOf_inBounds g.width g.height i hw hi)).mpr hreg⟩

/-- A move either leaves the origin region pointwise unchanged or grows it
strictly. -/
theorem child_region_cases (g : Grid) (d : List ℕ) (c : ℕ) (hw : 0 < g.width)
    (hh : 0 < g.height) (hlen : d.length = g.width * g.height) :
    (∀ p, InBounds g.width g.height p →
      (Rg g.width g.height (childData g d c) p ↔ Rg g.width g.height d p)) ∨
      regionCard g d + 1 ≤ regionCard g (childData g d c) := by
  by_cases he : originColor d = c
  · left
    intro p _
    rw [(child_point g d c hw hh hlen).2.2 he]
  · by_cases hall : ∀ p, InBounds g.width g.height p →
        Rg g.width g.height (childData g d c) p → Rg g.width g.height d p
    · left
      intro p hp
      exact ⟨hall p hp, fun hr => Rg_mono g d c hw hh hlen he p hr⟩
    · right
      push_neg at hall
      obtain ⟨q, hq, hq1, hq2⟩ := hall
      exact regionCard_strict g d c hw hh hlen he q hq hq1 hq2

/-- Region cells are in bounds. -/
theorem Rg_inBounds (w h : ℕ) (d : List ℕ) (hw : 0 < w) (hh : 0 < h)
    (p : ℕ × ℕ) (hp : Rg w h d p) : InBounds w h p := by
  unfold Rg Region at hp
  induction hp with
  | refl => exact ⟨hw, hh⟩
  | tail hab step ih => exact step.2.1

/-- From any in-bounds cell outside the origin region, walking back towards
the origin meets a region cell with an out-of-region in-bounds neighbour. -/
theorem boundary_walk (w h : ℕ) (d : List ℕ) (hw : 0 < w) (hh : 0 < h) :
    ∀ (n : ℕ) (p : ℕ × ℕ), p.1 + p.2 ≤ n → InBounds w h p → ¬Rg w h d p →
      ∃ b q, Rg w h d b ∧ Adjacent b q ∧ InBounds w h q ∧ ¬Rg w h d q := by
  intro n
  induction n with
  | zero =>
    intro p hpn hpb hpr
    obtain ⟨x, y⟩ := p
    have hx : x = 0 := by simp at hpn; omega
    have hy : y = 0 := by simp at hpn; omega
    subst hx; subst hy
    exact absurd Relation.ReflTransGen.refl hpr
  | succ n ih =>
    intro p hpn hpb hpr
    obtain ⟨x, y⟩ := p
    by_cases hx : 0 < x
    · by_cases hr2 : Rg w h d (x - 1, y)
      · refine ⟨(x - 1, y), (x, y), hr2, ?_, hpb, hpr⟩
        exact Or.inl ⟨rfl, Or.inl (by omega)⟩
      · refine ih (x - 1, y) (by simp at hpn ⊢; omega) ⟨?_, hpb.2⟩ hr2
        have := hpb.1
        simp at this ⊢
        omega
    · by_cases hy : 0 < y
      · by_cases hr2 : Rg w h d (x, y - 1)
        · refine ⟨(x, y - 1), (x, y), hr2, ?_, hpb, hpr⟩
          exact Or.inr ⟨rfl, Or.inl (by omega)⟩
        · refine ih (x, y - 1) (by simp at hpn ⊢; omega) ⟨hpb.1, ?_⟩ hr2
          have := hpb.2
          simp at this ⊢
          omega
      · have hx0 : x = 0 := by omega
        have hy0 : y = 0 := by omega
        subst hx0; subst hy0
        exact absurd Relation.ReflTransGen.refl hpr

/-- Reading inside a list yields a member. -/
theorem getD_mem (d : List ℕ) (i : ℕ) (hi : i < d.length) : d.getD i 0 ∈ d := by
  rw [List.getD_eq_getElem?_getD, List.getElem?_eq_getElem hi]
  exact List.getElem_mem hi

/-- Every incomplete well-formed cell list has a playable boundary color: a
legal move that absorbs at least one new cell into the origin region. -/
theorem exists_boundary_color (g : Grid) (d : List ℕ) (hw : 0 < g.width)
    (hh : 0 < g.height) (hlen : d.length = g.width * g.height)
    (hvals : ∀ v ∈ d, v < g.colors) (hnc : ¬completeData d) :
    ∃ c, c < g.colors ∧ c ≠ originColor d ∧
      ∃ q, InBounds g.width g.height q ∧ ¬Rg g.width g.height d q ∧
        Rg g.width g.height (childData g d c) q := by
  have hbad : ∃ v ∈ d, v ≠ originColor d := by
    by_contra hall
    push_neg at hall
    exact hnc fun v hv => hall v hv
  obtain ⟨v, hv, hvne⟩ := hbad
  obtain ⟨i, hil, hie⟩ := List.mem_iff_getElem.mp hv
  have hgd : d.getD i 0 = v := by
    rw [List.getD_eq_getElem?_getD, List.getElem?_eq_getElem hil]
    exact hie
  have hiN : i < g.width * g.height := by rw [← hlen]; exact hil
  have hp0b : InBounds g.width g.height (coordOf g.width i) :=
    coordOf_inBounds g.width g.height i hw hiN
  have hp0r : ¬Rg g.width g.height d (coordOf g.width i) := by
    intro hr
    have := cellAt_region_origin g.width g.height d _ hr
    rw [getD_coordOf g.width d i, hgd] at this
    exact hvne this
  obtain ⟨b, q, hb, hadj, hqb, hqr⟩ := boundary_walk g.width g.height d hw hh
    ((coordOf g.width i).1 + (coordOf g.width i).2) (coordOf g.width i) le_rfl hp0b hp0r
  set c := cellAt g.width d q with hc
  have hcne : c ≠ originColor d := by
    intro hceq
    exact hqr (Relation.ReflTransGen.tail hb ⟨hadj, hqb, hceq⟩)
  have hclt : c < g.colors := by
    apply hvals
    rw [hc]
    unfold cellAt
    exact getD_mem d _ (by rw [hlen]; exact index_lt g.width g.height q.1 q.2 hqb.1 hqb.2)
  refine ⟨c, hclt, hcne, q, hqb, hqr, ?_⟩
  refine Relation.ReflTransGen.tail (Rg_mono g d c hw hh hlen (Ne.symm hcne) b hb)
    ⟨hadj, hqb, ?_⟩
  rw [(child_point g d c hw hh hlen).2.1 q hqb hqr, ← hc,
    childData_origin g d c hw hh hlen]

/-- The body of the expansion fold, named for reasoning. -/
def expandStep (g temp : Grid) (st : SearchState)
    (acc : List SearchState × List (List ℕ)) (color : ℕ) :
    List SearchState × List (List ℕ) :=
  if color = getCell temp 0 0 ∨ st.moves.getLast? = some color then acc
  else
    let next := flood_fill temp color
    if next.data ∈ acc.2 then acc
    else (SearchState.mk (st.moves ++ [color]) next.data :: acc.1, next.data :: acc.2)

/-- `expandState` is the fold of `expandStep` over the color range. -/
theorem expandState_eq_foldl (g temp : Grid) (st : SearchState)
    (stack : List SearchState) (visited : List (List ℕ)) :
    expandState g temp st stack visited =
      (List.range g.colors).foldl (expandStep g temp st) (stack, visited) := rfl

/-- Skipped color: the accumulator is unchanged. -/
theorem expandStep_skip (g temp : Grid) (st : SearchState)
    (acc : List SearchState × List (List ℕ)) (c : ℕ)
    (h1 : c = getCell temp 0 0 ∨ st.moves.getLast? = some c) :
    expandStep g temp st acc c = acc := by
  unfold expandStep
  rw [if_pos h1]

/-- Already-seen successor: the accumulator is unchanged. -/
theorem expandStep_mem (g temp : Grid) (st : SearchState)
    (acc : List SearchState × List (List ℕ)) (c : ℕ)
    (h1 : ¬(c = getCell temp 0 0 ∨ st.moves.getLast? = some c))
    (h2 : (flood_fill temp c).data ∈ acc.2) :
    expandStep g temp st acc c = acc := by
  unfold expandStep
  rw [if_neg h1]
  show (if (flood_fill temp c).data ∈ acc.2 then acc else _) = acc
  rw [if_pos h2]

/-- Fresh successor: pushed on the stack and inserted into visited. -/
theorem expandStep_push (g temp : Grid) (st : SearchState)
    (acc : List SearchState × List (List ℕ)) (c : ℕ)
    (h1 : ¬(c = getCell temp 0 0 ∨ st.moves.getLast? = some c))
    (h2 : (flood_fill temp c).data ∉ acc.2) :
    expandStep g temp st acc c =
      (SearchState.mk (st.moves ++ [c]) (flood_fill temp c).data :: acc.1,
        (flood_fill temp c).data :: acc.2) := by
  unfold expandStep
  rw [if_neg h1]
  show (if (flood_fill temp c).data ∈ acc.2 then acc else _) = _
  rw [if_neg h2]

/-- Fine specification of the expansion fold: the result prepends a block
`P` of freshly pushed successor states to both the stack and the visited
list; every pushed state is a legal fresh child, and every legal child is
seen afterwards. -/
theorem expandFold_aux (g temp : Grid) (st : SearchState) :
    ∀ (l : List ℕ) (s0 : List SearchState) (v0 : List (List ℕ)),
      ∃ P : List SearchState,
        l.foldl (expandStep g temp st) (s0, v0) =
          (P ++ s0, P.map (fun s => s.grid_state) ++ v0) ∧
        (∀ s' ∈ P, ∃ c, c ∈ l ∧
          ¬(c = getCell temp 0 0 ∨ st.moves.getLast? = some c) ∧
          s'.moves = st.moves ++ [c] ∧ s'.grid_state = (flood_fill temp c).data ∧
          s'.grid_state ∉ v0) ∧
        (∀ c ∈ l, ¬(c = getCell temp 0 0 ∨ st.moves.getLast? = some c) →
          (flood_fill temp c).data ∈ P.map (fun s => s.grid_state) ++ v0) := by
  intro l
  induction l with
  | nil =>
    intro s0 v0
    exact ⟨[], rfl, by simp, by simp⟩
  | cons c cs ih =>
    intro s0 v0
    rw [List.foldl_cons]
    by_cases h1 : c = getCell temp 0 0 ∨ st.moves.getLast? = some c
    · rw [expandStep_skip g temp st (s0, v0) c h1]
      obtain ⟨P, hPeq, hPel, hPcov⟩ := ih s0 v0
      refine ⟨P, hPeq, ?_, ?_⟩
      · intro s' hs'
        obtain ⟨c', hc'm, hc'c, hc'v, hc'd, hc'f⟩ := hPel s' hs'
        exact ⟨c', List.mem_cons_of_mem c hc'm, hc'c, hc'v, hc'd, hc'f⟩
      · intro c' hc'm hc'c
        rcases List.mem_cons.mp hc'm with rfl | hc'm
        · exact absurd h1 hc'c
        · exact hPcov c' hc'm hc'c
    · by_cases h2 : (flood_fill temp c).data ∈ v0
      · rw [expandStep_mem g temp st (s0, v0) c h1 h2]
        obtain ⟨P, hPeq, hPel, hPcov⟩ := ih s0 v0
        refine ⟨P, hPeq, ?_, ?_⟩
        · intro s' hs'
          obtain ⟨c', hc'm, hc'c, hc'v, hc'd, hc'f⟩ := hPel s' hs'
          exact ⟨c', List.mem_cons_of_mem c hc'm, hc'c, hc'v, hc'd, hc'f⟩
        · intro c' hc'm hc'c
          rcases List.mem_cons.mp hc'm with rfl | hc'm
          · exact List.mem_append_right _ h2
          · exact hPcov c' hc'm hc'c
      · rw [expandStep_push g temp st (s0, v0) c h1 h2]
        obtain ⟨P, hPeq, hPel, hPcov⟩ :=
          ih (SearchState.mk (st.moves ++ [c]) (flood_fill temp c).data :: s0)
            ((flood_fill temp c).data :: v0)
        refine ⟨P ++ [SearchState.mk (st.moves ++ [c]) (flood_fill temp c).data], ?_, ?_, ?_⟩
        · rw [hPeq]
          rw [List.append_assoc, List.singleton_append, List.map_append, List.append_assoc]
          rfl
        · intro s' hs'
          rcases List.mem_append.mp hs' with hs' | hs'
          · obtain ⟨c', hc'm, hc'c, hc'v, hc'd, hc'f⟩ := hPel s' hs'
            refine ⟨c', List.mem_cons_of_mem c hc'm, hc'c, hc'v, hc'd, ?_⟩
            intro hmem
            exact hc'f (List.mem_cons_of_mem _ hmem)
          · rw [List.mem_singleton.mp hs']
            exact ⟨c, List.mem_cons_self c cs, h1, rfl, rfl, h2⟩
        · intro c' hc'm hc'c
          rcases List.mem_cons.mp hc'm with rfl | hc'm
          · apply List.mem_append_left
            rw [List.map_append]
            apply List.mem_append_right
            exact List.mem_singleton.mpr rfl
          · have := hPcov c' hc'm hc'c
            rcases List.mem_append.mp this with hin | hin
            · apply List.mem_append_left
              rw [List.map_append]
              exact List.mem_append_left _ hin
            · rcases List.mem_cons.mp hin with heq | hin
              · apply List.mem_append_left
                rw [List.map_append, heq]
                apply List.mem_append_right
                exact List.mem_singleton.mpr rfl
              · exact List.mem_append_right _ hin

/-- The body of the seeding fold, named for reasoning. -/
def initStep (g : Grid) (acc : List SearchState × List (List ℕ)) (color : ℕ) :
    List SearchState × List (List ℕ) :=
  if color ≠ getCell g 0 0 then
    let temp := flood_fill g color
    if temp.data ∈ acc.2 then acc
    else (SearchState.mk [color] temp.data :: acc.1, temp.data :: acc.2)
  else acc

/-- `initSearch` is the fold of `initStep` over the color range. -/
theorem initSearch_eq_foldl (g : Grid) :
    initSearch g = (List.range g.colors).foldl (initStep g) ([], []) := rfl

/-- Skipped seed color: the accumulator is unchanged. -/
theorem initStep_skip (g : Grid) (acc : List SearchState × List (List ℕ)) (c : ℕ)
    (h1 : ¬c ≠ getCell g 0 0) : initStep g acc c = acc := by
  unfold initStep
  rw [if_neg h1]

/-- Already-seen seed: the accumulator is unchanged. -/
theorem initStep_mem (g : Grid) (acc : List SearchState × List (List ℕ)) (c : ℕ)
    (h1 : c ≠ getCell g 0 0) (h2 : (flood_fill g c).data ∈ acc.2) :
    initStep g acc c = acc := by
  unfold initStep
  rw [if_pos h1]
  show (if (flood_fill g c).data ∈ acc.2 then acc else _) = acc
  rw [if_pos h2]

/-- Fresh seed: pushed on the stack and inserted into visited. -/
theorem initStep_push (g : Grid) (acc : List SearchState × List (List ℕ)) (c : ℕ)
    (h1 : c ≠ getCell g 0 0) (h2 : (flood_fill g c).data ∉ acc.2) :
    initStep g acc c =
      (SearchState.mk [c] (flood_fill g c).data :: acc.1,
        (flood_fill g c).data :: acc.2) := by
  unfold initStep
  rw [if_pos h1]
  show (if (flood_fill g c).data ∈ acc.2 then acc else _) = _
  rw [if_neg h2]

/-- Fine specification of the seeding fold, analogous to `expandFold_aux`. -/
theorem initFold_aux (g : Grid) :
    ∀ (l : List ℕ) (s0 : List SearchState) (v0 : List (List ℕ)),
      ∃ P : List SearchState,
        l.foldl (initStep g) (s0, v0) =
          (P ++ s0, P.map (fun s => s.grid_state) ++ v0) ∧
        (∀ s' ∈ P, ∃ c, c ∈ l ∧ c ≠ getCell g 0 0 ∧
          s'.moves = [c] ∧ s'.grid_state = (flood_fill g c).data ∧
          s'.grid_state ∉ v0) ∧
        (∀ c ∈ l, c ≠ getCell g 0 0 →
          (flood_fill g c).data ∈ P.map (fun s => s.grid_state) ++ v0) := by
  intro l
  induction l with
  | nil =>
    intro s0 v0
    exact ⟨[], rfl, by simp, by simp⟩
  | cons c cs ih =>
    intro s0 v0
    rw [List.foldl_cons]
    by_cases h1 : c ≠ getCell g 0 0
    · by_cases h2 : (flood_fill g c).data ∈ v0
      · rw [initStep_mem g (s0, v0) c h1 h2]
        obtain ⟨P, hPeq, hPel, hPcov⟩ := ih s0 v0
        refine ⟨P, hPeq, ?_, ?_⟩
        · intro s' hs'
          obtain ⟨c', hc'm, hc'c, hc'v, hc'd, hc'f⟩ := hPel s' hs'
          exact ⟨c', List.mem_cons_of_mem c hc'm, hc'c, hc'v, hc'd, hc'f⟩
        · intro c' hc'm hc'c
          rcases List.mem_cons.mp hc'm with rfl | hc'm
          · exact List.mem_append_right _ h2
          · exact hPcov c' hc'm hc'c
      · rw [initStep_push g (s0, v0) c h1 h2]
        obtain ⟨P, hPeq, hPel, hPcov⟩ :=
          ih (SearchState.mk [c] (flood_fill g c).data :: s0)
            ((flood_fill g c).data :: v0)
        refine ⟨P ++ [SearchState.mk [c] (flood_fill g c).data], ?_, ?_, ?_⟩
        · rw [hPeq]
          rw [List.append_assoc, List.singleton_append, List.map_append, List.append_assoc]
          rfl
        · intro s' hs'
          rcases List.mem_append.mp hs' with hs' | hs'
          · obtain ⟨c', hc'm, hc'c, hc'v, hc'd, hc'f⟩ := hPel s' hs'
            refine ⟨c', List.mem_cons_of_mem c hc'm, hc'c, hc'v, hc'd, ?_⟩
            intro hmem
            exact hc'f (List.mem_cons_of_mem _ hmem)
          · rw [List.mem_singleton.mp hs']
            exact ⟨c, List.mem_cons_self c cs, h1, rfl, rfl, h2⟩
        · intro c' hc'm hc'c
          rcases List.mem_cons.mp hc'm with rfl | hc'm
          · apply List.mem_append_left
            rw [List.map_append]
            apply List.mem_append_right
            exact List.mem_singleton.mpr rfl
          · have := hPcov c' hc'm hc'c
            rcases List.mem_append.mp this with hin | hin
            · apply List.mem_append_left
              rw [List.map_append]
              exact List.mem_append_left _ hin
            · rcases List.mem_cons.mp hin with heq | hin
              · apply List.mem_append_left
                rw [List.map_append, heq]
                apply List.mem_append_right
                exact List.mem_singleton.mpr rfl
              · exact List.mem_append_right _ hin
    · rw [initStep_skip g (s0, v0) c h1]
      obtain ⟨P, hPeq, hPel, hPcov⟩ := ih s0 v0
      refine ⟨P, hPeq, ?_, ?_⟩
      · intro s' hs'
        obtain ⟨c', hc'm, hc'c, hc'v, hc'd, hc'f⟩ := hPel s' hs'
        exact ⟨c', List.mem_cons_of_mem c hc'm, hc'c, hc'v, hc'd, hc'f⟩
      · intro c' hc'm hc'c
        rcases List.mem_cons.mp hc'm with rfl | hc'm
        · exact absurd hc'c h1
        · exact hPcov c' hc'm hc'c

/-- Fine specification of `expandState` as called from the search loop: a
block `P` of fresh legal children is pushed, and afterwards every legal
child of the popped state is in the visited list. -/
theorem expandState_fine (g : Grid) (st : SearchState) (rest : List SearchState)
    (visited : List (List ℕ))
    (hlast : st.moves.getLast? = some (originColor st.grid_state)) :
    ∃ P : List SearchState,
      expandState g (Grid.mk g.width g.height g.colors st.grid_state) st rest visited =
        (P ++ rest, P.map (fun s => s.grid_state) ++ visited) ∧
      (∀ s' ∈ P, ∃ c, c < g.colors ∧ c ≠ originColor st.grid_state ∧
        s'.moves = st.moves ++ [c] ∧ s'.grid_state = childData g st.grid_state c ∧
        s'.grid_state ∉ visited) ∧
      (∀ c, c < g.colors → c ≠ originColor st.grid_state →
        childData g st.grid_state c ∈ P.map (fun s => s.grid_state) ++ visited) := by
  obtain ⟨P, hPeq, hPel, hPcov⟩ := expandFold_aux g
    (Grid.mk g.width g.height g.colors st.grid_state) st (List.range g.colors) rest visited
  have hgc : getCell (Grid.mk g.width g.height g.colors st.grid_state) 0 0 =
      originColor st.grid_state := getCell_originColor _
  refine ⟨P, ?_, ?_, ?_⟩
  · rw [expandState_eq_foldl]
    exact hPeq
  · intro s' hs'
    obtain ⟨c, hcm, hcc, hcv, hcd, hcf⟩ := hPel s' hs'
    rw [not_or] at hcc
    refine ⟨c, List.mem_range.mp hcm, ?_, hcv, hcd, hcf⟩
    intro he
    exact hcc.1 (by rw [hgc, he])
  · intro c hc1 hc2
    apply hPcov c (List.mem_range.mpr hc1)
    rw [not_or]
    refine ⟨by rw [hgc]; exact fun he => hc2 he, ?_⟩
    rw [hlast]
    intro hsome
    exact hc2 (Option.some_inj.mp hsome).symm

/-- Fine specification of `initSearch`: the stack holds exactly the fresh
seed states and the visited list their matrices; every legal seed matrix is
in the visited list. -/
theorem initSearch_fine (g : Grid) :
    ∃ P : List SearchState,
      initSearch g = (P, P.map (fun s => s.grid_state)) ∧
      (∀ s' ∈ P, ∃ c, c < g.colors ∧ c ≠ originColor g.data ∧
        s'.moves = [c] ∧ s'.grid_state = childData g g.data c) ∧
      (∀ c, c < g.colors → c ≠ originColor g.data →
        childData g g.data c ∈ P.map (fun s => s.grid_state)) := by
  obtain ⟨P, hPeq, hPel, hPcov⟩ := initFold_aux g (List.range g.colors) [] []
  have hgc : getCell g 0 0 = originColor g.data := getCell_originColor g
  refine ⟨P, ?_, ?_, ?_⟩
  · rw [initSearch_eq_foldl, hPeq]
    simp
  · intro s' hs'
    obtain ⟨c, hcm, hcc, hcv, hcd, -⟩ := hPel s' hs'
    refine ⟨c, List.mem_range.mp hcm, by rw [← hgc]; exact hcc, hcv, hcd⟩
  · intro c hc1 hc2
    have := hPcov c (List.mem_range.mpr hc1) (by rw [hgc]; exact hc2)
    simpa using this

/-- Cell matrix obtained by playing a move list from the initial grid. -/
def applyMoves (g : Grid) (moves : List ℕ) : List ℕ :=
  moves.foldl (fun acc c => childData g acc c) g.data

/-- Playing one more move is one more flood fill. -/
theorem applyMoves_append (g : Grid) (ms : List ℕ) (c : ℕ) :
    applyMoves g (ms ++ [c]) = childData g (applyMoves g ms) c := by
  unfold applyMoves
  rw [List.foldl_append]
  rfl

/-- Folding `flood_fill` over a grid tracks the data-level fold. -/
theorem foldl_flood_tempGrid (g : Grid) :
    ∀ (moves : List ℕ) (d : List ℕ),
      moves.foldl (fun acc color => flood_fill acc color) (tempGrid g d) =
        tempGrid g (moves.foldl (fun acc c => childData g acc c) d) := by
  intro moves
  induction moves with
  | nil => intro d; rfl
  | cons c ms ih =>
    intro d
    rw [List.foldl_cons, List.foldl_cons]
    have hstep : flood_fill (tempGrid g d) c = tempGrid g (childData g d c) := by
      obtain ⟨h1, h2, h3, -⟩ := flood_fill_fields (tempGrid g d) c
      calc flood_fill (tempGrid g d) c
          = Grid.mk (flood_fill (tempGrid g d) c).width
              (flood_fill (tempGrid g d) c).height
              (flood_fill (tempGrid g d) c).colors
              (flood_fill (tempGrid g d) c).data := rfl
        _ = tempGrid g (childData g d c) := by rw [h1, h2, h3]; rfl
    rw [hstep, ih]

/-- `apply_solution` completes exactly when the data-level play does. -/
theorem apply_solution_complete (g : Grid) (sol : List ℕ) :
    (apply_solution g sol).2 = true ↔ completeData (applyMoves g sol) := by
  unfold apply_solution
  show isComplete (sol.foldl (fun acc color => flood_fill acc color) g) = true ↔ _
  have hg : (g : Grid) = tempGrid g g.data := rfl
  rw [hg, foldl_flood_tempGrid g sol g.data, isComplete_iff]
  exact Iff.rfl

/-- Every finite list has an element maximizing a measure, relative to a
default candidate. -/
theorem exists_max_elem {α : Type} (f : α → ℕ) :
    ∀ (l : List α) (a0 : α),
      ∃ a, (a = a0 ∨ a ∈ l) ∧ f a0 ≤ f a ∧ ∀ b ∈ l, f b ≤ f a := by
  intro l
  induction l with
  | nil =>
    intro a0
    exact ⟨a0, Or.inl rfl, le_rfl, by simp⟩
  | cons x xs ih =>
    intro a0
    obtain ⟨a, ha1, ha2, ha3⟩ := ih a0
    by_cases h : f x ≤ f a
    · refine ⟨a, ?_, ha2, ?_⟩
      · rcases ha1 with h1 | h1
        · exact Or.inl h1
        · exact Or.inr (List.mem_cons_of_mem x h1)
      · intro b hb
        rcases List.mem_cons.mp hb with rfl | hb
        · exact h
        · exact ha3 b hb
    · push_neg at h
      refine ⟨x, Or.inr (List.mem_cons_self x xs), le_trans ha2 (le_of_lt h), ?_⟩
      intro b hb
      rcases List.mem_cons.mp hb with rfl | hb
      · exact le_rfl
      · exact le_trans (ha3 b hb) (le_of_lt h)

/-- Every legal child of the matrix is already in the visited list; popping
such a state pushes nothing. -/
def AllChildVis (g : Grid) (d : List ℕ) (visited : List (List ℕ)) : Prop :=
  ∀ c, c < g.colors → c ≠ originColor d → childData g d c ∈ visited

/-- A one-move state whose origin region coincides with the initial grid's:
the seed merely recolored the initial region. -/
def ChurnSeed (g : Grid) (st : SearchState) : Prop :=
  st.moves.length = 1 ∧
    ∀ p, InBounds g.width g.height p →
      (Rg g.width g.height st.grid_state p ↔ Rg g.width g.height g.data p)

/-- The state's region exceeds the initial region by at least the number of
moves played: such states are always strictly below the depth bound. -/
def StrongLen (g : Grid) (st : SearchState) : Prop :=
  st.moves.length + regionCard g g.data ≤ regionCard g st.grid_state

/-- Loop invariant of the branch-and-bound search.  The bookkeeping fields
tie every stack entry to its move list and keep the visited list canonical;
the `phase` field either certifies a recorded solution or, before any
recording, maintains a stack entry of maximal region size whose class
guarantees it is never discarded by the depth bound. -/
structure SearchInv (g : Grid) (stack : List SearchState) (visited : List (List ℕ))
    (best : List ℕ) (minLen : ℕ) : Prop where
  vis_nodup : visited.Nodup
  vis_wf : ∀ d ∈ visited, WfData g d
  vis_canon : ∀ d ∈ visited, CanonData g d
  stack_vis : ∀ st ∈ stack, st.grid_state ∈ visited
  stack_moves : ∀ st ∈ stack, applyMoves g st.moves = st.grid_state
  stack_last : ∀ st ∈ stack, st.moves.getLast? = some (originColor st.grid_state)
  seeds_vis : ∀ c, c < g.colors → c ≠ originColor g.data → childData g g.data c ∈ visited
  phase : (completeData (applyMoves g best) ∧ minLen = best.length) ∨
    (best = [] ∧ minLen = g.width * g.height ∧
      (∀ st ∈ stack, ChurnSeed g st ∨ StrongLen g st ∨
        AllChildVis g st.grid_state visited) ∧
      ∃ st ∈ stack, (ChurnSeed g st ∨ StrongLen g st) ∧
        ∀ d ∈ visited, regionCard g d ≤ regionCard g st.grid_state)

/-- The initial grid's cell list is canonical. -/
theorem canonData_init (g : Grid) (hglen : g.data.length = g.width * g.height) :
    CanonData g g.data :=
  ⟨hglen, fun _ _ _ => rfl⟩

/-- Undiscardable witness states have region at least the initial region. -/
theorem witness_rc0 (g : Grid) (hw : 0 < g.width) (hh : 0 < g.height)
    (hglen : g.data.length = g.width * g.height) (st : SearchState)
    (hlen : st.grid_state.length = g.width * g.height)
    (hcls : ChurnSeed g st ∨ StrongLen g st) :
    regionCard g g.data ≤ regionCard g st.grid_state := by
  rcases hcls with h | h
  · exact le_of_eq (regionCard_congr g st.grid_state g.data hw hh hlen hglen h.2).symm
  · have := h
    unfold StrongLen at this
    omega

/-- Undiscardable witness states sit strictly below the depth bound. -/
theorem witness_len_lt (g : Grid) (hw : 0 < g.width) (hh : 0 < g.height)
    (hglen : g.data.length = g.width * g.height) (st : SearchState)
    (hlen : st.grid_state.length = g.width * g.height)
    (hN2 : 2 ≤ g.width * g.height) (hcls : ChurnSeed g st ∨ StrongLen g st) :
    st.moves.length < g.width * g.height := by
  rcases hcls with h | h
  · rw [h.1]; omega
  · have h1 := regionCard_le g st.grid_state
    have h2 := regionCard_pos g g.data hw hh hglen
    have := h
    unfold StrongLen at this
    omega

/-- An incomplete state of maximal region among the visited matrices has a
legal move to a strictly larger, hence unvisited, matrix. -/
theorem max_incomplete_fresh (g : Grid) (hw : 0 < g.width) (hh : 0 < g.height)
    (d : List ℕ) (visited : List (List ℕ))
    (hlen : d.length = g.width * g.height) (hvals : ∀ v ∈ d, v < g.colors)
    (hnc : ¬completeData d)
    (hmax : ∀ d' ∈ visited, regionCard g d' ≤ regionCard g d) :
    ∃ c, c < g.colors ∧ c ≠ originColor d ∧
      regionCard g d + 1 ≤ regionCard g (childData g d c) ∧
      childData g d c ∉ visited := by
  obtain ⟨c, hclt, hcne, q, hqb, hqnr, hqreg⟩ :=
    exists_boundary_color g d hw hh hlen hvals hnc
  have hstrict : regionCard g d + 1 ≤ regionCard g (childData g d c) :=
    regionCard_strict g d c hw hh hlen (Ne.symm hcne) q hqb hqreg hqnr
  refine ⟨c, hclt, hcne, hstrict, fun hmem => ?_⟩
  have := hmax _ hmem
  omega

/-- Expanding an incomplete popped state preserves the search invariant. -/
theorem expand_inv (g : Grid) (hw : 0 < g.width) (hh : 0 < g.height)
    (hglen : g.data.length = g.width * g.height)
    (hgvals : ∀ v ∈ g.data, v < g.colors) (hN2 : 2 ≤ g.width * g.height)
    (st : SearchState) (rest : List SearchState) (visited : List (List ℕ))
    (best : List ℕ) (minLen : ℕ)
    (hinv : SearchInv g (st :: rest) visited best minLen)
    (hnc : ¬completeData st.grid_state) :
    SearchInv g
      (expandState g (Grid.mk g.width g.height g.colors st.grid_state) st rest visited).1
      (expandState g (Grid.mk g.width g.height g.colors st.grid_state) st rest visited).2
      best minLen := by
  obtain ⟨hnd, hvwf, hvcan, hsvis, hsmov, hslast, hseeds, hphase⟩ := hinv
  have hstvis : st.grid_state ∈ visited := hsvis st (List.mem_cons_self _ _)
  have hstwf : WfData g st.grid_state := hvwf _ hstvis
  have hstcan : CanonData g st.grid_state := hvcan _ hstvis
  have hstlast : st.moves.getLast? = some (originColor st.grid_state) :=
    hslast st (List.mem_cons_self _ _)
  obtain ⟨P, hPeq, hPel, hPcov⟩ := expandState_fine g st rest visited hstlast
  obtain ⟨hnd2, hvwf2, hsw2, -⟩ := expandState_spec g
    (Grid.mk g.width g.height g.colors st.grid_state) st rest visited
    hstwf.1 hstwf.2 hnd hvwf (fun s hs => hvwf _ (hsvis s (List.mem_cons_of_mem _ hs)))
  rw [hPeq] at hnd2 hvwf2
  rw [hPeq]
  -- classification of every pushed state, relative to the enlarged visited list
  have hclassB : (∀ s ∈ st :: rest, ChurnSeed g s ∨ StrongLen g s ∨
      AllChildVis g s.grid_state visited) →
      ∀ s' ∈ P, ChurnSeed g s' ∨ StrongLen g s' ∨
        AllChildVis g s'.grid_state (P.map (fun s => s.grid_state) ++ visited) := by
    intro hclass s' hs'
    obtain ⟨c, hclt, hcne, hmv, hdat, hfresh⟩ := hPel s' hs'
    rcases hclass st (List.mem_cons_self _ _) with hcs | hsl | hacv
    · -- popped state is a churn seed: only the initial grid can be pushed
      by_cases hc0 : c = originColor g.data
      · have hdg : s'.grid_state = g.data := by
          rw [hdat, hc0]
          exact child_at_origin_eq g st.grid_state g.data hw hh hstcan
            (canonData_init g hglen) hcs.2
        refine Or.inr (Or.inr ?_)
        intro c'' h1 h2
        rw [hdg] at h2 ⊢
        exact List.mem_append_right _ (hseeds c'' h1 h2)
      · exfalso
        apply hfresh
        rw [hdat, children_eq g st.grid_state g.data hw hh hstcan
          (canonData_init g hglen) hcs.2 c (Ne.symm hcne) (Ne.symm hc0)]
        exact hseeds c hclt hc0
    · -- popped state satisfies the strong length bound
      rcases child_region_cases g st.grid_state c hw hh hstwf.1 with hiff | hstrict
      · -- churn child: all of its children are already visited
        rw [← hdat] at hiff
        have hcanon' : CanonData g s'.grid_state := by
          rw [hdat]
          exact canon_child g st.grid_state c hw hh hstcan
        refine Or.inr (Or.inr ?_)
        intro c'' h1 h2
        by_cases h3 : c'' = originColor st.grid_state
        · rw [h3, child_at_origin_eq g s'.grid_state st.grid_state hw hh hcanon'
            hstcan hiff]
          exact List.mem_append_right _ hstvis
        · rw [children_eq g s'.grid_state st.grid_state hw hh hcanon' hstcan hiff
            c'' (Ne.symm h2) (Ne.symm h3)]
          exact hPcov c'' h1 h3
      · -- absorbing child: strictly larger region, strong length bound holds
        refine Or.inr (Or.inl ?_)
        unfold StrongLen
        have hlenmv : s'.moves.length = st.moves.length + 1 := by
          rw [hmv, List.length_append, List.length_singleton]
        have hrc : regionCard g s'.grid_state = regionCard g (childData g st.grid_state c) := by
          rw [hdat]
        have := hsl
        unfold StrongLen at this
        omega
    · exfalso
      exact hfresh (hdat ▸ hacv c hclt hcne)
  refine ⟨hnd2, fun d hd => hvwf2 d hd, ?_, ?_, ?_, ?_, ?_, ?_⟩
  · -- canonical
    intro d hd
    rcases List.mem_append.mp hd with hd | hd
    · obtain ⟨s', hs', hds⟩ := List.mem_map.mp hd
      obtain ⟨c, hclt, hcne, hmv, hdat, hfresh⟩ := hPel s' hs'
      have hds' : s'.grid_state = d := hds
      rw [← hds', hdat]
      exact canon_child g st.grid_state c hw hh hstcan
    · exact hvcan d hd
  · -- stack grids visited
    intro s hs
    rcases List.mem_append.mp hs with hs | hs
    · exact List.mem_append_left _ (List.mem_map_of_mem (fun s => s.grid_state) hs)
    · exact List.mem_append_right _ (hsvis s (List.mem_cons_of_mem _ hs))
  · -- moves reproduce the grid
    intro s hs
    rcases List.mem_append.mp hs with hs | hs
    · obtain ⟨c, hclt, hcne, hmv, hdat, hfresh⟩ := hPel s hs
      rw [hmv, applyMoves_append, hsmov st (List.mem_cons_self _ _), ← hdat]
    · exact hsmov s (List.mem_cons_of_mem _ hs)
  · -- last move is the origin color
    intro s hs
    rcases List.mem_append.mp hs with hs | hs
    · obtain ⟨c, hclt, hcne, hmv, hdat, hfresh⟩ := hPel s hs
      rw [hmv, hdat, childData_origin g st.grid_state c hw hh hstwf.1]
      exact List.getLast?_concat _
    · exact hslast s (List.mem_cons_of_mem _ hs)
  · -- seed matrices stay visited
    intro c h1 h2
    exact List.mem_append_right _ (hseeds c h1 h2)
  · -- phase
    rcases hphase with hA | ⟨hbest, hmin, hclass, hwit⟩
    · exact Or.inl hA
    have hclassP := hclassB hclass
    refine Or.inr ⟨hbest, hmin, ?_, ?_⟩
    · -- classes on the new stack
      intro s hs
      rcases List.mem_append.mp hs with hs | hs
      · exact hclassP s hs
      · rcases hclass s (List.mem_cons_of_mem _ hs) with h | h | h
        · exact Or.inl h
        · exact Or.inr (Or.inl h)
        · exact Or.inr (Or.inr fun c h1 h2 => List.mem_append_right _ (h c h1 h2))
    · -- the maximal-region witness
      obtain ⟨w0, hw0mem, hw0cls, hw0max⟩ := hwit
      rcases List.mem_cons.mp hw0mem with heq | hw0rest
      · -- the popped state was the witness
        subst heq
        rcases hw0cls with hcs | hsl
        · -- a maximal churn seed cannot be incomplete
          exfalso
          obtain ⟨v, hvlt, hvne, q, hqb, hqnr, hqreg⟩ :=
            exists_boundary_color g w0.grid_state hw hh hstwf.1 hstwf.2 hnc
          by_cases hv0 : v = originColor g.data
          · apply hqnr
            apply (hcs.2 q hqb).mpr
            rw [hv0, child_at_origin_eq g w0.grid_state g.data hw hh hstcan
              (canonData_init g hglen) hcs.2] at hqreg
            exact hqreg
          · have hstrict : regionCard g w0.grid_state + 1 ≤
                regionCard g (childData g w0.grid_state v) :=
              regionCard_strict g w0.grid_state v hw hh hstwf.1 (Ne.symm hvne) q hqb hqreg hqnr
            have hmem : childData g w0.grid_state v ∈ visited := by
              rw [children_eq g w0.grid_state g.data hw hh hstcan
                (canonData_init g hglen) hcs.2 v (Ne.symm hvne) (Ne.symm hv0)]
              exact hseeds v hvlt hv0
            have := hw0max _ hmem
            omega
        · -- a maximal strong witness pushes a fresh absorbing child
          obtain ⟨v, hvlt, hvne, hstrict, hfreshv⟩ := max_incomplete_fresh g hw hh
            w0.grid_state visited hstwf.1 hstwf.2 hnc hw0max
          have hcov := hPcov v hvlt hvne
          rcases List.mem_append.mp hcov with hin | hin
          swap
          · exact absurd hin hfreshv
          obtain ⟨s1, hs1P, hs1d⟩ := List.mem_map.mp hin
          have hs1d' : s1.grid_state = childData g w0.grid_state v := hs1d
          obtain ⟨a, ha1, ha2, ha3⟩ :=
            exists_max_elem (fun s => regionCard g s.grid_state) P s1
          have haP : a ∈ P := by
            rcases ha1 with rfl | h
            · exact hs1P
            · exact h
          have haS : StrongLen g a := by
            obtain ⟨c_a, hcalt, hcane, hamv, hadat, hafresh⟩ := hPel a haP
            rcases child_region_cases g w0.grid_state c_a hw hh hstwf.1 with hiff | hstr
            · exfalso
              have hrca : regionCard g a.grid_state = regionCard g w0.grid_state := by
                rw [hadat]
                exact regionCard_congr g (childData g w0.grid_state c_a) w0.grid_state
                  hw hh ((childData_length g w0.grid_state c_a).trans hstwf.1) hstwf.1 hiff
              have h1 : regionCard g s1.grid_state ≤ regionCard g a.grid_state := ha2
              rw [hs1d'] at h1
              omega
            · unfold StrongLen
              have hlenmv : a.moves.length = w0.moves.length + 1 := by
                rw [hamv, List.length_append, List.length_singleton]
              have hrc : regionCard g a.grid_state =
                  regionCard g (childData g w0.grid_state c_a) := by rw [hadat]
              have := hsl
              unfold StrongLen at this
              omega
          refine ⟨a, List.mem_append_left _ haP, Or.inr haS, ?_⟩
          intro d hd
          rcases List.mem_append.mp hd with hd | hd
          · obtain ⟨s2, hs2P, hs2d⟩ := List.mem_map.mp hd
            have hs2d' : s2.grid_state = d := hs2d
            rw [← hs2d']
            exact ha3 s2 hs2P
          · have h1 := hw0max d hd
            have h2 : regionCard g s1.grid_state ≤ regionCard g a.grid_state := ha2
            rw [hs1d'] at h2
            omega
      · -- the witness survives in the remaining stack
        obtain ⟨a, ha1, ha2, ha3⟩ :=
          exists_max_elem (fun s => regionCard g s.grid_state) P w0
        by_cases hle : regionCard g a.grid_state ≤ regionCard g w0.grid_state
        · refine ⟨w0, List.mem_append_right _ hw0rest, hw0cls, ?_⟩
          intro d hd
          rcases List.mem_append.mp hd with hd | hd
          · obtain ⟨s2, hs2P, hs2d⟩ := List.mem_map.mp hd
            have hs2d' : s2.grid_state = d := hs2d
            have := ha3 s2 hs2P
            rw [hs2d'] at this
            omega
          · exact hw0max d hd
        · push_neg at hle
          have haP : a ∈ P := by
            rcases ha1 with rfl | h
            · omega
            · exact h
          have hw0lenok : w0.grid_state.length = g.width * g.height :=
            (hvwf _ (hsvis w0 (List.mem_cons_of_mem _ hw0rest))).1
          have haS : StrongLen g a := by
            obtain ⟨c_a, hcalt, hcane, hamv, hadat, hafresh⟩ := hPel a haP
            rcases hclass st (List.mem_cons_self _ _) with hcs | hsl | hacv
            · -- churn-seed parent: the only push is the initial grid, too small
              exfalso
              by_cases hc0 : c_a = originColor g.data
              · have hdg : a.grid_state = g.data := by
                  rw [hadat, hc0]
                  exact child_at_origin_eq g st.grid_state g.data hw hh hstcan
                    (canonData_init g hglen) hcs.2
                have hrc0 : regionCard g a.grid_state = regionCard g g.data := by
                  rw [hdg]
                have hge := witness_rc0 g hw hh hglen w0 hw0lenok hw0cls
                omega
              · apply hafresh
                rw [hadat, children_eq g st.grid_state g.data hw hh hstcan
                  (canonData_init g hglen) hcs.2 c_a (Ne.symm hcane) (Ne.symm hc0)]
                exact hseeds c_a hcalt hc0
            · rcases child_region_cases g st.grid_state c_a hw hh hstwf.1 with hiff | hstr
              · exfalso
                have hrca : regionCard g a.grid_state = regionCard g st.grid_state := by
                  rw [hadat]
                  exact regionCard_congr g (childData g st.grid_state c_a) st.grid_state
                    hw hh ((childData_length g st.grid_state c_a).trans hstwf.1) hstwf.1 hiff
                have h1 := hw0max st.grid_state hstvis
                omega
              · unfold StrongLen
                have hlenmv : a.moves.length = st.moves.length + 1 := by
                  rw [hamv, List.length_append, List.length_singleton]
                have hrc : regionCard g a.grid_state =
                    regionCard g (childData g st.grid_state c_a) := by rw [hadat]
                have := hsl
                unfold StrongLen at this
                omega
            · exact absurd (hadat ▸ hacv c_a hcalt hcane) hafresh
          refine ⟨a, List.mem_append_left _ haP, Or.inr haS, ?_⟩
          intro d hd
          rcases List.mem_append.mp hd with hd | hd
          · obtain ⟨s2, hs2P, hs2d⟩ := List.mem_map.mp hd
            have hs2d' : s2.grid_state = d := hs2d
            rw [← hs2d']
            exact ha3 s2 hs2P
          · have := hw0max d hd
            omega

/-- The search loop, run under the invariant with enough fuel, returns a
move list that completes the initial grid. -/
theorem solveLoop_inv (g : Grid) (hw : 0 < g.width) (hh : 0 < g.height)
    (hglen : g.data.length = g.width * g.height)
    (hgvals : ∀ v ∈ g.data, v < g.colors) (hN2 : 2 ≤ g.width * g.height) :
    ∀ (fuel : ℕ) (stack : List SearchState) (visited : List (List ℕ))
      (best : List ℕ) (minLen : ℕ),
      SearchInv g stack visited best minLen →
      2 * (g.colors ^ (g.width * g.height) - visited.length) + stack.length ≤ fuel →
      completeData (applyMoves g (solveLoop g fuel stack visited best minLen)) := by
  intro fuel
  induction fuel with
  | zero =>
    intro stack visited best minLen hinv hm
    have hstack : stack = [] := by
      cases stack with
      | nil => rfl
      | cons a l => simp only [List.length_cons] at hm; omega
    subst hstack
    rcases hinv.phase with hA | ⟨-, -, -, hwit⟩
    · exact hA.1
    · obtain ⟨w0, hw0mem, -⟩ := hwit
      exact absurd hw0mem (List.not_mem_nil w0)
  | succ n ih =>
    intro stack visited best minLen hinv hm
    match stack with
    | [] =>
      rcases hinv.phase with hA | ⟨-, -, -, hwit⟩
      · exact hA.1
      · obtain ⟨w0, hw0mem, -⟩ := hwit
        exact absurd hw0mem (List.not_mem_nil w0)
    | st :: rest =>
      have hstwf : WfData g st.grid_state :=
        hinv.vis_wf _ (hinv.stack_vis st (List.mem_cons_self _ _))
      by_cases h1 : minLen ≤ st.moves.length
      · rw [solveLoop_skip g n st rest visited best minLen h1]
        refine ih rest visited best minLen ?_ ?_
        · obtain ⟨hnd, hvwf, hvcan, hsvis, hsmov, hslast, hseeds, hphase⟩ := hinv
          refine ⟨hnd, hvwf, hvcan, fun s hs => hsvis s (List.mem_cons_of_mem _ hs),
            fun s hs => hsmov s (List.mem_cons_of_mem _ hs),
            fun s hs => hslast s (List.mem_cons_of_mem _ hs), hseeds, ?_⟩
          rcases hphase with hA | ⟨hbest, hmin, hclass, hwit⟩
          · exact Or.inl hA
          · refine Or.inr ⟨hbest, hmin,
              fun s hs => hclass s (List.mem_cons_of_mem _ hs), ?_⟩
            obtain ⟨w0, hw0mem, hw0cls, hw0max⟩ := hwit
            rcases List.mem_cons.mp hw0mem with heq | hw0rest
            · exfalso
              subst heq
              have := witness_len_lt g hw hh hglen w0 hstwf.1 hN2 hw0cls
              rw [hmin] at h1
              omega
            · exact ⟨w0, hw0rest, hw0cls, hw0max⟩
        · simp only [List.length_cons] at hm
          omega
      · by_cases h2 : isComplete (Grid.mk g.width g.height g.colors st.grid_state) = true
        · rw [solveLoop_record g n st rest visited best minLen h1 h2]
          refine ih rest visited st.moves st.moves.length ?_ ?_
          · obtain ⟨hnd, hvwf, hvcan, hsvis, hsmov, hslast, hseeds, hphase⟩ := hinv
            refine ⟨hnd, hvwf, hvcan, fun s hs => hsvis s (List.mem_cons_of_mem _ hs),
              fun s hs => hsmov s (List.mem_cons_of_mem _ hs),
              fun s hs => hslast s (List.mem_cons_of_mem _ hs), hseeds, Or.inl ⟨?_, rfl⟩⟩
            rw [hsmov st (List.mem_cons_self _ _)]
            exact (isComplete_iff (Grid.mk g.width g.height g.colors st.grid_state)).mp h2
          · simp only [List.length_cons] at hm
            omega
        · rw [solveLoop_expand g n st rest visited best minLen h1 h2]
          have hnc : ¬completeData st.grid_state := fun hc =>
            h2 ((isComplete_iff (Grid.mk g.width g.height g.colors st.grid_state)).mpr hc)
          refine ih _ _ best minLen
            (expand_inv g hw hh hglen hgvals hN2 st rest visited best minLen hinv hnc) ?_
          obtain ⟨hnd2, hvwf2, hsw2, hbal⟩ := expandState_spec g
            (Grid.mk g.width g.height g.colors st.grid_state) st rest visited
            hstwf.1 hstwf.2 hinv.vis_nodup hinv.vis_wf
            (fun s hs => hinv.vis_wf _ (hinv.stack_vis s (List.mem_cons_of_mem _ hs)))
          have hle := visited_le_total g _ hnd2 hvwf2
          have hmono := expandState_visited_le g
            (Grid.mk g.width g.height g.colors st.grid_state) st rest visited
          simp only [List.length_cons] at hm
          omega

/-- Claim C1: for every well-formed grid (every cell value below the color
count, at least one color), applying the move sequence returned by `solve`
to the original grid via `apply_solution` leaves the grid complete. -/
theorem solve_completes (g : Grid) (hwf : WellFormed g) :
    (apply_solution g (solve g)).2 = true := by
  obtain ⟨hglen, hgvals, hcpos⟩ := hwf
  by_cases hc : isComplete g = true
  · unfold solve
    rw [if_pos hc]
    exact hc
  · have hw : 0 < g.width := by
      by_contra hcon
      push_neg at hcon
      have h0 : g.width = 0 := by omega
      have hdata : g.data = [] := List.length_eq_zero.mp (by rw [hglen, h0, Nat.zero_mul])
      apply hc
      unfold isComplete
      rw [hdata]
      rfl
    have hh : 0 < g.height := by
      by_contra hcon
      push_neg at hcon
      have h0 : g.height = 0 := by omega
      have hdata : g.data = [] := List.length_eq_zero.mp (by rw [hglen, h0, Nat.mul_zero])
      apply hc
      unfold isComplete
      rw [hdata]
      rfl
    have hN1 : 1 ≤ g.width * g.height := Nat.mul_pos hw hh
    have hN2 : 2 ≤ g.width * g.height := by
      by_contra hcon
      push_neg at hcon
      have hN : g.width * g.height = 1 := by omega
      obtain ⟨v, hv⟩ := List.length_eq_one.mp (hglen.trans hN)
      apply hc
      rw [isComplete_iff]
      intro x hx
      rw [hv] at hx
      rw [List.mem_singleton.mp hx]
      unfold originColor
      rw [hv]
      rfl
    obtain ⟨P0, hP0eq, hP0el, hP0cov⟩ := initSearch_fine g
    obtain ⟨hnd00, hvwf00, hsw0, -⟩ := initSearch_spec g hglen hgvals
    rw [hP0eq] at hnd00 hvwf00
    have hnd0 : (P0.map (fun s => s.grid_state)).Nodup := hnd00
    have hvwf0 : ∀ d ∈ P0.map (fun s => s.grid_state), WfData g d := hvwf00
    have hncg : ¬completeData g.data := fun hcd => hc ((isComplete_iff g).mpr hcd)
    have hcls0 : ∀ s ∈ P0, ChurnSeed g s ∨ StrongLen g s := by
      intro s hs
      obtain ⟨c, hclt, hcne, hmv, hdat⟩ := hP0el s hs
      rcases child_region_cases g g.data c hw hh hglen with hiff | hstrict
      · refine Or.inl ⟨by rw [hmv]; rfl, ?_⟩
        intro p hp
        rw [hdat]
        exact hiff p hp
      · refine Or.inr ?_
        unfold StrongLen
        have h3 : regionCard g s.grid_state = regionCard g (childData g g.data c) := by
          rw [hdat]
        have h4 : s.moves.length = 1 := by rw [hmv]; rfl
        omega
    have hinv0 : SearchInv g P0 (P0.map (fun s => s.grid_state)) [] (g.width * g.height) := by
      refine ⟨hnd0, hvwf0, ?_, ?_, ?_, ?_, ?_, ?_⟩
      · intro d hd
        obtain ⟨s, hsP, hsd⟩ := List.mem_map.mp hd
        obtain ⟨c, hclt, hcne, hmv, hdat⟩ := hP0el s hsP
        have hsd' : s.grid_state = d := hsd
        rw [← hsd', hdat]
        exact canon_child g g.data c hw hh (canonData_init g hglen)
      · intro s hs
        exact List.mem_map_of_mem _ hs
      · intro s hs
        obtain ⟨c, hclt, hcne, hmv, hdat⟩ := hP0el s hs
        rw [hmv, hdat]
        rfl
      · intro s hs
        obtain ⟨c, hclt, hcne, hmv, hdat⟩ := hP0el s hs
        rw [hmv, hdat, childData_origin g g.data c hw hh hglen]
        simp
      · intro c h1 h2
        exact hP0cov c h1 h2
      · refine Or.inr ⟨rfl, rfl, ?_, ?_⟩
        · intro s hs
          rcases hcls0 s hs with h | h
          · exact Or.inl h
          · exact Or.inr (Or.inl h)
        · have hbad : ∃ v ∈ g.data, v ≠ originColor g.data := by
            by_contra hall
            push_neg at hall
            exact hncg fun v hv => hall v hv
          obtain ⟨v, hvmem, hvne⟩ := hbad
          have hvlt : v < g.colors := hgvals v hvmem
          have hcv := hP0cov v hvlt hvne
          obtain ⟨s1, hs1P, hs1d⟩ := List.mem_map.mp hcv
          obtain ⟨a, ha1, ha2, ha3⟩ :=
            exists_max_elem (fun s => regionCard g s.grid_state) P0 s1
          have haP : a ∈ P0 := by
            rcases ha1 with rfl | h
            · exact hs1P
            · exact h
          refine ⟨a, haP, hcls0 a haP, ?_⟩
          intro d hd
          obtain ⟨s2, hs2P, hs2d⟩ := List.mem_map.mp hd
          have hs2d' : s2.grid_state = d := hs2d
          rw [← hs2d']
          exact ha3 s2 hs2P
    rw [apply_solution_complete]
    have hsolve : solve g = solveLoop g (solveFuel g) (initSearch g).1 (initSearch g).2 []
        (g.width * g.height) := by
      unfold solve
      rw [if_neg hc]
    rw [hsolve, hP0eq]
    apply solveLoop_inv g hw hh hglen hgvals hN2 (solveFuel g) P0
      (P0.map (fun s => s.grid_state)) [] (g.width * g.height) hinv0
    have hle := visited_le_total g _ hnd0 hvwf0
    have hlm : (P0.map (fun s => s.grid_state)).length = P0.length := List.length_map _ _
    unfold solveFuel
    omega

/-- Witness for C1 at a concrete well-formed grid. -/
theorem solve_completes_witness :
    WellFormed (Grid.mk 2 2 2 [0, 1, 1, 0]) ∧
      (apply_solution (Grid.mk 2 2 2 [0, 1, 1, 0])
        (solve (Grid.mk 2 2 2 [0, 1, 1, 0]))).2 = true :=
  ⟨by decide, solve_completes (Grid.mk 2 2 2 [0, 1, 1, 0]) (by decide)⟩
